import Mathlib

/-!
The package go-iprange, file `interval.go`.

A shallow embedding of `interval.go` and theorems about it.

* `uint32` values are natural numbers; every arithmetic operation of the source that can
  wrap is written with an explicit `% 2 ^ 32` (and `% 256` for the `byte` counter `num`).
* A `[]byte` (and a Go `string`, which is a byte sequence) is a `List Nat`.
* `*Interval` is an address into a heap of `Interval` records, so that the in-place write of
  `merge` and the sharing of records between `intervals` and `mergedIntervals` are kept.
-/

namespace IPRange

/-! ## Errors -/

/-- The package's error values: the source declares the single value `InvalidIPAddress`. -/
inductive Error where
  | InvalidIPAddress
  deriving DecidableEq, Repr

deriving instance DecidableEq for Except

/-! ## `loadip4` -/

/-- The state of the `for _, b = range ipstr` loop of `loadip4`: the locals `ip`, `oct`, `num`. -/
structure LoadState where
  ip : Nat
  oct : Nat
  num : Nat
  deriving DecidableEq, Repr

/-- The loop of `loadip4` (lines 164-181), run on the bytes that are left.
`'.'` is 46, `'0'` is 48 and `'9'` is 57. -/
def loadip4Loop : List Nat → LoadState → Except Error LoadState
  | [], s => .ok s
  | b :: rest, s =>
    if b = 46 then
      if 0xffffffff - s.ip < s.oct then .error .InvalidIPAddress
      else loadip4Loop rest
        { ip := ((s.ip * 256) % 2 ^ 32 + s.oct) % 2 ^ 32, oct := 0, num := (s.num + 1) % 256 }
    else if 48 ≤ b ∧ b ≤ 57 then
      if (s.oct * 10 + (b - 48)) % 2 ^ 32 > 255 then .error .InvalidIPAddress
      else loadip4Loop rest { s with oct := (s.oct * 10 + (b - 48)) % 2 ^ 32 }
    else .error .InvalidIPAddress

/-- The function `loadip4` (lines 157-189). -/
def loadip4 (ipstr : List Nat) : Except Error Nat :=
  match loadip4Loop ipstr { ip := 0, oct := 0, num := 0 } with
  | .error e => .error e
  | .ok s =>
    if s.num ≠ 3 then .error .InvalidIPAddress
    else if 0xffffffff - s.ip < s.oct then .error .InvalidIPAddress
    else .ok (((s.ip * 256) % 2 ^ 32 + s.oct) % 2 ^ 32)

/-! ## Texts -/

/-- The bytes of the canonical decimal text of `n` (no sign, no leading zero, `"0"` for 0). -/
def decimal (n : Nat) : List Nat := (Nat.toDigits 10 n).map Char.toNat

/-- The bytes of the text `"a.b.c.d"`. -/
def dottedQuad (a b c d : Nat) : List Nat :=
  decimal a ++ 46 :: (decimal b ++ 46 :: (decimal c ++ 46 :: decimal d))

/-- Whether a byte is one of `'0'..'9'`. -/
def isDigit (b : Nat) : Bool := decide (48 ≤ b ∧ b ≤ 57)

/-- The decimal value of a run of digit bytes, most significant first, continuing from `acc`. -/
def digitsValue (acc : Nat) (ds : List Nat) : Nat :=
  ds.foldl (fun v b => v * 10 + (b - 48)) acc

/-- The number of `'.'` bytes of a byte sequence. -/
def countDots (bs : List Nat) : Nat := bs.count 46

/-- Whether `run` is a maximal run of digit bytes of `pre ++ run ++ post`: it is not empty,
all its bytes are digits, and it is neither preceded nor followed by a digit. -/
def maximalDigitRun (pre run post : List Nat) : Bool :=
  !run.isEmpty && run.all isDigit &&
    (match pre.getLast? with | none => true | some b => !isDigit b) &&
    (match post.head? with | none => true | some b => !isDigit b)

/-- The groups of bytes that the `'.'` bytes of a byte sequence separate, in order; a
sequence with `n` dots has `n + 1` groups, and a group may be empty. In a sequence made only of
digits and dots the groups that are not empty are its maximal runs of digits. -/
def groups : List Nat → List (List Nat)
  | [] => [[]]
  | b :: rest =>
    if b = 46 then [] :: groups rest
    else
      match groups rest with
      | [] => [[b]]
      | g :: gs => (b :: g) :: gs

/-! ## `parsecidr4` -/

/-- The result of `bytes.IndexByte`: the index of the first `c` in `bs`, or `-1`. -/
def indexByte (bs : List Nat) (c : Nat) : Int :=
  if c ∈ bs then (bs.indexOf c : Int) else -1

/-- A `uint32` shift `x << cnt`: bits shifted out are lost and a count of 32 or more gives 0. -/
def shl32 (x cnt : Nat) : Nat :=
  if 32 ≤ cnt then 0 else (x * 2 ^ cnt) % 2 ^ 32

/-- The loop of `parsecidr4` over `cidr[p+1:]` (lines 138-143); `none` is the early return
of `InvalidIPAddress`. -/
def maskLoop : List Nat → Nat → Option Nat
  | [], mask => some mask
  | c :: rest, mask =>
    if c < 48 ∨ c > 57 then none
    else maskLoop rest ((mask * 10 + (c - 48)) % 2 ^ 32)

/-- The function `parsecidr4` (lines 134-154). `'/'` is 47; `32 - mask` is a `uint32`
subtraction. -/
def parsecidr4 (cidr : List Nat) : Except Error (Nat × Nat) :=
  let p := indexByte cidr 47
  if p > 0 then
    match maskLoop (cidr.drop (p.toNat + 1)) 0 with
    | none => .error .InvalidIPAddress
    | some mask =>
      match loadip4 (cidr.take p.toNat) with
      | .error e => .error e
      | .ok ip => .ok (ip, shl32 0xffffffff ((2 ^ 32 + 32 - mask) % 2 ^ 32))
  else
    match loadip4 cidr with
    | .error e => .error e
    | .ok ip => .ok (ip, 0xffffffff)

/-! ## Intervals and the union -/

/-- The struct `Interval`. -/
structure Interval where
  start : Nat
  end_ : Nat
  deriving DecidableEq, Repr, Inhabited

/-- The record at an address: a `*Interval` is the index of a record in the heap, a natural
number. Addresses held by a union are inside the heap. -/
def deref (heap : List Interval) (p : Nat) : Interval := heap.getD p default

/-- The struct `Union`, together with the heap of the `Interval` records that its two slices
of `*Interval` point into. -/
structure Union where
  heap : List Interval
  intervals : List Nat
  mergedIntervals : List Nat
  deriving DecidableEq, Repr

/-- The function `New`. -/
def New : Union := { heap := [], intervals := [], mergedIntervals := [] }

/-- The function `min` of the source. -/
def min (a b : Nat) : Nat := if a < b then a else b

/-- The function `max` of the source. -/
def max (a b : Nat) : Nat := if a > b then a else b

/-- The method `find` (lines 68-75): it scans `union.intervals`. -/
def find (union : Union) (target : Nat) : Bool :=
  union.intervals.any fun p =>
    decide (target ≥ (deref union.heap p).start ∧ target ≤ (deref union.heap p).end_)

/-- The locals of the loop of `insert`, and the heap. -/
structure InsertState where
  heap : List Interval
  left : Nat
  right : Nat
  merged : Bool
  res : List Nat
  deriving DecidableEq, Repr

/-- One iteration of the loop of `insert` (lines 83-96). `&Interval{left, right}` is a new
record at the end of the heap. -/
def insertStep (s : InsertState) (interval : Nat) : InsertState :=
  if (deref s.heap interval).start > s.right then
    if !s.merged then
      { s with heap := s.heap ++ [{ start := s.left, end_ := s.right }],
               res := s.res ++ [s.heap.length] ++ [interval],
               merged := true }
    else { s with res := s.res ++ [interval] }
  else if (deref s.heap interval).end_ < s.left then
    { s with res := s.res ++ [interval] }
  else
    { s with left := min s.left (deref s.heap interval).start,
             right := max s.right (deref s.heap interval).end_ }

/-- The method `insert` (lines 77-102); the second component is the returned error. -/
def insert (union : Union) (newInterval : Nat) : Union × Option Error :=
  let s := union.mergedIntervals.foldl insertStep
    { heap := union.heap, left := (deref union.heap newInterval).start,
      right := (deref union.heap newInterval).end_, merged := false, res := [] }
  if !s.merged then
    ({ heap := s.heap ++ [{ start := s.left, end_ := s.right }],
       intervals := union.intervals ++ [newInterval],
       mergedIntervals := s.res ++ [s.heap.length] }, none)
  else
    ({ heap := s.heap, intervals := union.intervals ++ [newInterval],
       mergedIntervals := s.res }, none)

/-- The call `union.insert(&Interval{start, end})`, as `addRange` and `addCidrByte` make it:
the argument is a new record. -/
def insertNew (union : Union) (start end_ : Nat) : Union × Option Error :=
  insert { union with heap := union.heap ++ [{ start := start, end_ := end_ }] }
    union.heap.length

/-- The comparison function given to `sort.Slice` in `merge` (line 107). -/
def less (heap : List Interval) (p q : Nat) : Bool :=
  decide ((deref heap p).start < (deref heap q).start) ||
    (decide ((deref heap p).start = (deref heap q).start) &&
      decide ((deref heap p).end_ < (deref heap q).end_))

/-- The call of `sort.Slice` in `merge`: the addresses in ascending order of `less`.
`sort.Slice` is not stable; records that neither is `less` than the other have the same
`start` and `end`, so the sorted sequence of `(start, end)` pairs does not depend on the
sorting algorithm. -/
def sortSlice (heap : List Interval) (ps : List Nat) : List Nat :=
  ps.insertionSort fun p q => less heap q p = false

/-- One iteration of the loop of `merge` (lines 110-116), on the heap and
`union.mergedIntervals`. The `else` branch writes the field `end` of a record in place. -/
def mergeStep (s : List Interval × List Nat) (interval : Nat) : List Interval × List Nat :=
  match s.2.getLast? with
  | none => (s.1, s.2 ++ [interval])
  | some last =>
    if (deref s.1 last).end_ < (deref s.1 interval).start then (s.1, s.2 ++ [interval])
    else
      (s.1.set last { start := (deref s.1 last).start,
                      end_ := max (deref s.1 last).end_ (deref s.1 interval).end_ }, s.2)

/-- The method `merge` (lines 104-118); the second component is the returned error. -/
def merge (union : Union) : Union × Option Error :=
  let intervals := sortSlice union.heap union.intervals
  let s := intervals.foldl mergeStep (union.heap, [])
  ({ heap := s.1, intervals := intervals, mergedIntervals := s.2 }, none)

/-- The method `addCidrByte` (lines 49-58). -/
def addCidrByte (union : Union) (cidr : List Nat) : Union × Option Error :=
  if indexByte cidr 46 ≤ 0 then (union, some .InvalidIPAddress)
  else
    match parsecidr4 cidr with
    | .error e => (union, some e)
    | .ok (start, end_) => insertNew union start end_

/-- The method `addCidr` (lines 45-47), on the bytes of the string. -/
def addCidr (union : Union) (cidr : List Nat) : Union × Option Error :=
  addCidrByte union cidr

/-- The method `addRange` (lines 30-43), on the bytes of the two strings. -/
def addRange (union : Union) (startIp endIp : List Nat) : Union × Option Error :=
  if 46 ∈ startIp ∨ 46 ∈ endIp then (union, some .InvalidIPAddress)
  else
    match loadip4 startIp with
    | .error e => (union, some e)
    | .ok start =>
      match loadip4 endIp with
      | .error e => (union, some e)
      | .ok end_ => insertNew union start end_

/-- The method `findByString` (lines 60-66). -/
def findByString (union : Union) (target : List Nat) : Bool :=
  match loadip4 target with
  | .error _ => false
  | .ok ipInt => find union ipInt

/-- The `(start, end)` pairs of the records that a slice of addresses points to. -/
def view (heap : List Interval) (ps : List Nat) : List Interval := ps.map (deref heap)

/-! ## The two loops on values

The loops of `insert` and `merge` read and write records through addresses. The functions
below are the same loops on the `(start, end)` pairs themselves; `insert_spec` and
`merge_spec` relate them to the methods. -/

/-- The comparison function of `merge` on records. -/
def lessV (a b : Interval) : Bool :=
  decide (a.start < b.start) || (decide (a.start = b.start) && decide (a.end_ < b.end_))

/-- The order in which `sort.Slice` leaves the records: `b` is not `less` than `a`. -/
def keyLe (a b : Interval) : Prop := lessV b a = false

instance : DecidableRel keyLe := fun a b => inferInstanceAs (Decidable (lessV b a = false))

/-- The loop of `insert` followed by the final `if !merged`, on records: the new value of
`mergedIntervals` from the old one and the locals `left`, `right`, `merged`. -/
def walk : List Interval → Nat → Nat → Bool → List Interval
  | [], left, right, merged => if merged then [] else [{ start := left, end_ := right }]
  | iv :: rest, left, right, merged =>
    if iv.start > right then
      if merged then iv :: walk rest left right true
      else { start := left, end_ := right } :: iv :: walk rest left right true
    else if iv.end_ < left then iv :: walk rest left right merged
    else walk rest (min left iv.start) (max right iv.end_) merged

/-- The loop of `merge` on records, from the last record `cur` of `mergedIntervals` on. -/
def sweep : Interval → List Interval → List Interval
  | cur, [] => [cur]
  | cur, b :: rest =>
    if cur.end_ < b.start then cur :: sweep b rest
    else sweep { start := cur.start, end_ := max cur.end_ b.end_ } rest

/-- The loop of `merge` on records. -/
def sweepAll : List Interval → List Interval
  | [] => []
  | a :: rest => sweep a rest

/-- The records in the order in which `sort.Slice` leaves them. -/
def sortV (L : List Interval) : List Interval := L.insertionSort keyLe

/-- The value of `mergedIntervals` after `merge`, from the records of the raw log. -/
def bulk (L : List Interval) : List Interval := sweepAll (sortV L)

/-- The value of `mergedIntervals` after inserting the records one after another. -/
def incremental (M : List Interval) (L : List Interval) : List Interval :=
  L.foldl (fun m x => walk m x.start x.end_ false) M

/-- The value of `mergedIntervals` that `insert` stores after its loop, as records. -/
def finishView (s : InsertState) : List Interval :=
  if s.merged then view s.heap s.res
  else view (s.heap ++ [{ start := s.left, end_ := s.right }]) (s.res ++ [s.heap.length])

/-- Every record has `start ≤ end` and ends strictly before the next one starts. -/
def separated (M : List Interval) : Prop :=
  (∀ iv ∈ M, iv.start ≤ iv.end_) ∧ M.Chain' (fun a b => a.end_ < b.start)

/-- Whether `t` lies in the closed interval. -/
def covers (iv : Interval) (t : Nat) : Prop := iv.start ≤ t ∧ t ≤ iv.end_

instance (iv : Interval) (t : Nat) : Decidable (covers iv t) :=
  inferInstanceAs (Decidable (iv.start ≤ t ∧ t ≤ iv.end_))

/-- The unions built from `New()` by calls of `addCidr` that return no error, calls of
`insert` (on a new record, or on the address of a record that is already in the heap) and
calls of `merge`, in any sequence, in which every interval handed to `insert` has
`start ≤ end`. The caller may allocate records of its own in between (`alloc`). -/
inductive ReachableWF : Union → Prop
  | new : ReachableWF New
  | alloc (u : Union) (ext : List Interval) : ReachableWF u →
      ReachableWF { u with heap := u.heap ++ ext }
  | addCidr (u : Union) (cidr : List Nat) (a b : Nat) : ReachableWF u →
      (addCidr u cidr).2 = none → parsecidr4 cidr = .ok (a, b) → a ≤ b →
      ReachableWF (addCidr u cidr).1
  | insert (u : Union) (a b : Nat) : ReachableWF u → a ≤ b → ReachableWF (insertNew u a b).1
  | insertAt (u : Union) (p : Nat) : ReachableWF u → p < u.heap.length →
      (deref u.heap p).start ≤ (deref u.heap p).end_ → ReachableWF (insert u p).1
  | merge (u : Union) : ReachableWF u → ReachableWF (merge u).1

/-- What holds of a union built with intervals that have `start ≤ end`: the addresses are
inside the heap, those of the log point to records with `start ≤ end`, the
records of `mergedIntervals` are separated, and they cover the values that the records of the
log cover. -/
def Inv (u : Union) : Prop :=
  (∀ p ∈ u.intervals, p < u.heap.length) ∧
  (∀ q ∈ u.mergedIntervals, q < u.heap.length) ∧
  (∀ p ∈ u.intervals, (deref u.heap p).start ≤ (deref u.heap p).end_) ∧
  separated (view u.heap u.mergedIntervals) ∧
  (∀ t, (∃ p ∈ u.intervals, covers (deref u.heap p) t) ↔
    ∃ iv ∈ view u.heap u.mergedIntervals, covers iv t)

/-- Calling `insert` on the intervals of a list one after another, each on a new record. -/
def insertAll (u : Union) (L : List Interval) : Union :=
  L.foldl (fun v x => (insertNew v x.start x.end_).1) u

/-- The bytes of the text `"a.b.c.d/n"`. -/
def cidrText (a b c d n : Nat) : List Nat := dottedQuad a b c d ++ 47 :: decimal n

/-- The union after `addCidr("192.0.0.0/2")`, `addCidr("0.0.0.0/0")`,
`addCidr("224.0.0.0/3")` and `merge()` on `New()`: three intervals with `start ≤ end`, inserted
out of order. -/
def threeCidrs : Union :=
  (merge (addCidr (addCidr (addCidr New (cidrText 192 0 0 0 2)).1 (cidrText 0 0 0 0 0)).1
    (cidrText 224 0 0 0 3)).1).1

end IPRange

namespace IPRange

/-! ## Facts about `loadip4` -/

theorem error_eq (e : Error) : e = Error.InvalidIPAddress := by
  cases e; rfl

theorem digitsValue_cons (acc b : Nat) (ds : List Nat) :
    digitsValue acc (b :: ds) = digitsValue (acc * 10 + (b - 48)) ds := rfl

theorem digitsValue_mono (ds : List Nat) : ∀ acc acc2 : Nat, acc ≤ acc2 →
    digitsValue acc ds ≤ digitsValue acc2 ds := by
  induction ds with
  | nil => intro acc acc2 h; simpa [digitsValue] using h
  | cons b ds ih =>
    intro acc acc2 h
    rw [digitsValue_cons, digitsValue_cons]
    exact ih _ _ (by omega)

theorem le_digitsValue (ds : List Nat) : ∀ acc : Nat, acc ≤ digitsValue acc ds := by
  induction ds with
  | nil => intro acc; simp [digitsValue]
  | cons b ds ih =>
    intro acc
    rw [digitsValue_cons]
    exact le_trans (by omega) (ih _)

/-- Scanning a run of digit bytes whose value stays within 255 only updates `oct`. -/
theorem loadip4Loop_digits (ds : List Nat) : ∀ (rest : List Nat) (s : LoadState),
    (∀ b ∈ ds, 48 ≤ b ∧ b ≤ 57) → digitsValue s.oct ds ≤ 255 →
    loadip4Loop (ds ++ rest) s = loadip4Loop rest { s with oct := digitsValue s.oct ds } := by
  induction ds with
  | nil => intro rest s _ _; simp [digitsValue]
  | cons b ds ih =>
    intro rest s hd hv
    have hb := hd b (List.mem_cons_self _ _)
    rw [digitsValue_cons] at hv
    have h1 : s.oct * 10 + (b - 48) ≤ 255 := le_trans (le_digitsValue ds _) hv
    have hmod : (s.oct * 10 + (b - 48)) % 2 ^ 32 = s.oct * 10 + (b - 48) :=
      Nat.mod_eq_of_lt (by omega)
    have hne : b ≠ 46 := by omega
    rw [List.cons_append, loadip4Loop, if_neg hne, if_pos hb, hmod, if_neg (by omega)]
    rw [ih rest _ (fun x hx => hd x (List.mem_cons_of_mem _ hx)) hv, digitsValue_cons]

/-- Scanning a `'.'` when the guard `0xffffffff-ip < oct` does not fire. -/
theorem loadip4Loop_dot (rest : List Nat) (s : LoadState) (h : ¬ 0xffffffff - s.ip < s.oct) :
    loadip4Loop (46 :: rest) s = loadip4Loop rest
      { ip := ((s.ip * 256) % 2 ^ 32 + s.oct) % 2 ^ 32, oct := 0, num := (s.num + 1) % 256 } := by
  rw [loadip4Loop, if_pos rfl, if_neg h]

set_option maxRecDepth 100000 in
/-- The canonical decimal text of every octet is a run of digits with that value. -/
theorem decimal_octet : ∀ n < 256,
    (∀ b ∈ decimal n, 48 ≤ b ∧ b ≤ 57) ∧ digitsValue 0 (decimal n) = n := by
  decide

/-- Scanning the decimal text of an octet followed by a `'.'`. -/
theorem loadip4Loop_octet_dot (n : Nat) (hn : n < 256) (rest : List Nat) (ip num : Nat)
    (hip : ip < 2 ^ 24) :
    loadip4Loop (decimal n ++ 46 :: rest) { ip := ip, oct := 0, num := num } =
      loadip4Loop rest { ip := ip * 256 + n, oct := 0, num := (num + 1) % 256 } := by
  obtain ⟨hd, hv⟩ := decimal_octet n hn
  rw [loadip4Loop_digits (decimal n) _ _ hd (by simp only [hv]; omega)]
  simp only [hv]
  rw [loadip4Loop_dot _ _ (by simp only; omega)]
  have : ((ip * 256) % 2 ^ 32 + n) % 2 ^ 32 = ip * 256 + n := by omega
  simp only [this]

/-- The value of `loadip4` on a dotted quad of octets. -/
theorem loadip4_quad (a b c d : Nat) (ha : a ≤ 255) (hb : b ≤ 255) (hc : c ≤ 255)
    (hd : d ≤ 255) :
    loadip4 (dottedQuad a b c d) = .ok (a * 2 ^ 24 + b * 2 ^ 16 + c * 2 ^ 8 + d) := by
  obtain ⟨hdd, hdv⟩ := decimal_octet d (by omega)
  have hloop : loadip4Loop (dottedQuad a b c d) { ip := 0, oct := 0, num := 0 } =
      .ok { ip := ((0 * 256 + a) * 256 + b) * 256 + c, oct := d, num := 3 } := by
    unfold dottedQuad
    rw [loadip4Loop_octet_dot a (by omega) _ 0 0 (by omega)]
    rw [loadip4Loop_octet_dot b (by omega) _ _ _ (by omega)]
    rw [loadip4Loop_octet_dot c (by omega) _ _ _ (by omega)]
    have h := loadip4Loop_digits (decimal d) []
      { ip := ((0 * 256 + a) * 256 + b) * 256 + c, oct := 0, num := 3 } hdd
      (by simp only [hdv]; omega)
    rw [List.append_nil] at h
    rw [show ((0 + 1) % 256 + 1) % 256 = 2 from rfl, show (2 + 1) % 256 = 3 from rfl, h]
    simp only [hdv, loadip4Loop]
  unfold loadip4
  rw [hloop]
  simp only [ne_eq, not_true_eq_false, if_false]
  rw [if_neg (by omega)]
  congr 1
  omega

/-- C1: for all octets `a b c d` in `[0,255]`, `loadip4` on the bytes of the canonical decimal
text `"a.b.c.d"` succeeds and returns `a*2^24 + b*2^16 + c*2^8 + d`. -/
theorem loadip4_dottedQuad (a b c d : Nat) (ha : a ≤ 255) (hb : b ≤ 255) (hc : c ≤ 255)
    (hd : d ≤ 255) :
    loadip4 (dottedQuad a b c d) = .ok (a * 2 ^ 24 + b * 2 ^ 16 + c * 2 ^ 8 + d) :=
  loadip4_quad a b c d ha hb hc hd

/-- C1, at `"192.168.1.0"`. -/
theorem loadip4_dottedQuad_witness :
    loadip4 (dottedQuad 192 168 1 0) = .ok (192 * 2 ^ 24 + 168 * 2 ^ 16 + 1 * 2 ^ 8 + 0) :=
  loadip4_dottedQuad 192 168 1 0 (by decide) (by decide) (by decide) (by decide)

/-- The value of `num` after a scan that ends without error is the number of dots, kept
in 8 bits. -/
theorem loadip4Loop_num (bs : List Nat) : ∀ (s s2 : LoadState), s.num < 256 →
    loadip4Loop bs s = .ok s2 → s2.num = (s.num + countDots bs) % 256 := by
  induction bs with
  | nil =>
    intro s s2 hs h
    simp only [loadip4Loop, Except.ok.injEq] at h
    subst h
    simp [countDots, Nat.mod_eq_of_lt hs]
  | cons b bs ih =>
    intro s s2 hs h
    rw [loadip4Loop] at h
    by_cases hb : b = 46
    · rw [if_pos hb] at h
      by_cases hg : 0xffffffff - s.ip < s.oct
      · rw [if_pos hg] at h; cases h
      · rw [if_neg hg] at h
        have := ih _ s2 (Nat.mod_lt _ (by decide)) h
        simp only at this
        rw [this, hb]
        simp only [countDots, List.count_cons_self]
        omega
    · rw [if_neg hb] at h
      by_cases hd : 48 ≤ b ∧ b ≤ 57
      · rw [if_pos hd] at h
        by_cases hg : (s.oct * 10 + (b - 48)) % 2 ^ 32 > 255
        · rw [if_pos hg] at h; cases h
        · rw [if_neg hg] at h
          have := ih _ s2 (by simpa using hs) h
          simp only at this
          rw [this]
          simp only [countDots, List.count_cons_of_ne (Ne.symm hb)]
      · rw [if_neg hd] at h; cases h

/-- The check `num != 3` of `loadip4`. -/
theorem loadip4_of_dots (bs : List Nat) (h : countDots bs % 256 ≠ 3) :
    loadip4 bs = .error .InvalidIPAddress := by
  unfold loadip4
  cases hl : loadip4Loop bs { ip := 0, oct := 0, num := 0 } with
  | error e => rw [error_eq e]
  | ok s2 =>
    have hn := loadip4Loop_num bs _ s2 (by decide) hl
    simp only [Nat.zero_add] at hn
    simp only
    rw [if_pos (by rw [hn]; exact h)]

/-- C2: for every byte sequence whose number of `'.'` bytes, as the code keeps it in the 8-bit
counter `num`, is not 3, `loadip4` returns the `InvalidIPAddress` error. -/
theorem loadip4_dot_count (bs : List Nat) (h : countDots bs % 256 ≠ 3) :
    loadip4 bs = .error .InvalidIPAddress :=
  loadip4_of_dots bs h

set_option maxRecDepth 100000 in
/-- With 259 dots the 8-bit counter is back at 3 and `loadip4` returns 0 without error. -/
theorem loadip4_259_dots : loadip4 (List.replicate 259 46) = .ok 0 := by
  decide

/-- C2, at `"1.2.3"`, which has two dots. -/
theorem loadip4_dot_count_witness :
    countDots [49, 46, 50, 46, 51] % 256 ≠ 3 ∧
      loadip4 [49, 46, 50, 46, 51] = .error .InvalidIPAddress :=
  ⟨by decide, loadip4_dot_count [49, 46, 50, 46, 51] (by decide)⟩

/-- A scan either fails or goes on with `oct` within 255. -/
theorem loadip4Loop_prefix (pre : List Nat) : ∀ (rest : List Nat) (s : LoadState),
    s.oct ≤ 255 →
    loadip4Loop (pre ++ rest) s = .error .InvalidIPAddress ∨
      ∃ s1 : LoadState, s1.oct ≤ 255 ∧ loadip4Loop (pre ++ rest) s = loadip4Loop rest s1 := by
  induction pre with
  | nil => intro rest s hs; exact Or.inr ⟨s, hs, rfl⟩
  | cons b pre ih =>
    intro rest s hs
    rw [List.cons_append, loadip4Loop]
    by_cases hb : b = 46
    · rw [if_pos hb]
      by_cases hg : 0xffffffff - s.ip < s.oct
      · rw [if_pos hg]; exact Or.inl rfl
      · rw [if_neg hg]; exact ih rest _ (by simp)
    · rw [if_neg hb]
      by_cases hd : 48 ≤ b ∧ b ≤ 57
      · rw [if_pos hd]
        by_cases hg : (s.oct * 10 + (b - 48)) % 2 ^ 32 > 255
        · rw [if_pos hg]; exact Or.inl rfl
        · rw [if_neg hg]; exact ih rest _ (by simpa using hg)
      · rw [if_neg hd]; exact Or.inl rfl

/-- A scan that meets a byte other than a digit and `'.'` fails. -/
theorem loadip4Loop_bad_byte (bs : List Nat) : ∀ (s : LoadState),
    (∃ b ∈ bs, b ≠ 46 ∧ isDigit b = false) →
    loadip4Loop bs s = .error .InvalidIPAddress := by
  induction bs with
  | nil => intro s h; obtain ⟨b, hb, _⟩ := h; cases hb
  | cons c bs ih =>
    intro s h
    rw [loadip4Loop]
    by_cases hc : c = 46
    · rw [if_pos hc]
      by_cases hg : 0xffffffff - s.ip < s.oct
      · rw [if_pos hg]
      · rw [if_neg hg]
        apply ih
        obtain ⟨b, hb, h1, h2⟩ := h
        rcases List.mem_cons.1 hb with rfl | hb
        · exact absurd hc h1
        · exact ⟨b, hb, h1, h2⟩
    · rw [if_neg hc]
      by_cases hd : 48 ≤ c ∧ c ≤ 57
      · rw [if_pos hd]
        by_cases hg : (s.oct * 10 + (c - 48)) % 2 ^ 32 > 255
        · rw [if_pos hg]
        · rw [if_neg hg]
          apply ih
          obtain ⟨b, hb, h1, h2⟩ := h
          rcases List.mem_cons.1 hb with rfl | hb
          · simp [isDigit, hd] at h2
          · exact ⟨b, hb, h1, h2⟩
      · rw [if_neg hd]

/-- A scan of a run of digits whose value exceeds 255 fails. -/
theorem loadip4Loop_big_run (run : List Nat) : ∀ (post : List Nat) (s : LoadState),
    s.oct ≤ 255 → (∀ b ∈ run, 48 ≤ b ∧ b ≤ 57) → 255 < digitsValue s.oct run →
    loadip4Loop (run ++ post) s = .error .InvalidIPAddress := by
  induction run with
  | nil => intro post s hs _ hv; simp [digitsValue] at hv; omega
  | cons b run ih =>
    intro post s hs hd hv
    have hb := hd b (List.mem_cons_self _ _)
    have hne : b ≠ 46 := by omega
    have hmod : (s.oct * 10 + (b - 48)) % 2 ^ 32 = s.oct * 10 + (b - 48) :=
      Nat.mod_eq_of_lt (by omega)
    rw [List.cons_append, loadip4Loop, if_neg hne, if_pos hb, hmod]
    by_cases hg : s.oct * 10 + (b - 48) > 255
    · rw [if_pos hg]
    · rw [if_neg hg]
      exact ih post _ (by simpa using hg) (fun x hx => hd x (List.mem_cons_of_mem _ hx))
        (by simpa [digitsValue_cons] using hv)

theorem loadip4_of_loop_error (bs : List Nat)
    (h : loadip4Loop bs { ip := 0, oct := 0, num := 0 } = .error .InvalidIPAddress) :
    loadip4 bs = .error .InvalidIPAddress := by
  unfold loadip4; rw [h]

/-- C3: for every byte sequence that contains a byte other than `'0'..'9'` and `'.'`, or in
which some maximal run of digit bytes has a decimal value greater than 255, `loadip4` returns
the `InvalidIPAddress` error. -/
theorem loadip4_rejects (bs : List Nat)
    (h : (∃ b ∈ bs, b ≠ 46 ∧ isDigit b = false) ∨
      (∃ pre run post, bs = pre ++ run ++ post ∧ maximalDigitRun pre run post = true ∧
        255 < digitsValue 0 run)) :
    loadip4 bs = .error .InvalidIPAddress := by
  apply loadip4_of_loop_error
  rcases h with h | ⟨pre, run, post, rfl, hmax, hv⟩
  · exact loadip4Loop_bad_byte bs _ h
  · have hdig : ∀ b ∈ run, 48 ≤ b ∧ b ≤ 57 := by
      simp only [maximalDigitRun, Bool.and_eq_true, List.all_eq_true, isDigit,
        decide_eq_true_eq] at hmax
      exact hmax.1.1.2
    rw [List.append_assoc]
    rcases loadip4Loop_prefix pre (run ++ post) { ip := 0, oct := 0, num := 0 }
      (Nat.zero_le _) with h | ⟨s1, hs1, h⟩
    · exact h
    · rw [h]
      exact loadip4Loop_big_run run post s1 hs1 hdig
        (lt_of_lt_of_le hv (digitsValue_mono run 0 s1.oct (Nat.zero_le _)))

/-- C3, at `"1.2.256.4"` (the run `256`) . -/
theorem loadip4_rejects_witness :
    loadip4 [49, 46, 50, 46, 50, 53, 54, 46, 52] = .error .InvalidIPAddress :=
  loadip4_rejects [49, 46, 50, 46, 50, 53, 54, 46, 52]
    (Or.inr ⟨[49, 46, 50, 46], [50, 53, 54], [46, 52], by decide, by decide, by decide⟩)

/-- The text `"1.2.a.4"`, with a byte that is neither a digit nor a dot, is rejected. -/
theorem loadip4_bad_byte_example :
    loadip4 [49, 46, 50, 46, 97, 46, 52] = .error .InvalidIPAddress := by
  decide

/-! ## Facts about `parsecidr4` and `addCidr` -/

set_option maxRecDepth 100000 in
/-- The canonical decimal text of an octet starts with a digit. -/
theorem decimal_octet_headD : ∀ n < 256, 48 ≤ (decimal n).headD 0 := by
  decide

theorem decimal_octet_head (n : Nat) (hn : n < 256) :
    ∃ h t, decimal n = h :: t ∧ 48 ≤ h := by
  have h := decimal_octet_headD n hn
  cases e : decimal n with
  | nil => rw [e] at h; simp at h
  | cons x t => rw [e] at h; exact ⟨x, t, rfl, by simpa using h⟩

set_option maxRecDepth 100000 in
/-- The mask loop reads the canonical decimal text of a prefix length back. -/
theorem maskLoop_decimal : ∀ n < 33, maskLoop (decimal n) 0 = some n := by
  decide

set_option maxRecDepth 100000 in
/-- The mask that `parsecidr4` computes for a prefix length within 32. -/
theorem shl32_mask : ∀ n < 33,
    shl32 0xffffffff ((2 ^ 32 + 32 - n) % 2 ^ 32) = 2 ^ 32 - 2 ^ (32 - n) := by
  decide

theorem mem_dottedQuad (a b c d : Nat) (ha : a ≤ 255) (hb : b ≤ 255) (hc : c ≤ 255)
    (hd : d ≤ 255) : ∀ x ∈ dottedQuad a b c d, x = 46 ∨ (48 ≤ x ∧ x ≤ 57) := by
  intro x hx
  simp only [dottedQuad, List.mem_append, List.mem_cons] at hx
  rcases hx with h | h | h | h | h | h | h
  · exact Or.inr ((decimal_octet a (by omega)).1 x h)
  · exact Or.inl h
  · exact Or.inr ((decimal_octet b (by omega)).1 x h)
  · exact Or.inl h
  · exact Or.inr ((decimal_octet c (by omega)).1 x h)
  · exact Or.inl h
  · exact Or.inr ((decimal_octet d (by omega)).1 x h)

theorem indexByte_of_not_mem (pre post : List Nat) (c : Nat) (h : c ∉ pre) :
    indexByte (pre ++ c :: post) c = pre.length := by
  unfold indexByte
  rw [if_pos (by simp), List.indexOf_append_of_not_mem h, List.indexOf_cons_self]
  simp

theorem indexByte_pos_of_head (h c : Nat) (t : List Nat) (hne : h ≠ c) (hmem : c ∈ t) :
    0 < indexByte (h :: t) c := by
  unfold indexByte
  rw [if_pos (List.mem_cons_of_mem _ hmem), List.indexOf_cons_ne _ hne]
  omega

/-- The value of `parsecidr4` on a dotted quad of octets followed by `/n`. -/
theorem parsecidr4_cidrText (a b c d n : Nat) (ha : a ≤ 255) (hb : b ≤ 255) (hc : c ≤ 255)
    (hd : d ≤ 255) (hn : n ≤ 32) :
    parsecidr4 (cidrText a b c d n) =
      .ok (a * 2 ^ 24 + b * 2 ^ 16 + c * 2 ^ 8 + d, 2 ^ 32 - 2 ^ (32 - n)) := by
  have hnot : (47 : Nat) ∉ dottedQuad a b c d := by
    intro h
    rcases mem_dottedQuad a b c d ha hb hc hd 47 h with h | h <;> omega
  have hlen : 0 < (dottedQuad a b c d).length := by
    obtain ⟨h, t, e, _⟩ := decimal_octet_head a (by omega)
    simp [dottedQuad, e]
  have hp : indexByte (cidrText a b c d n) 47 = ((dottedQuad a b c d).length : Int) :=
    indexByte_of_not_mem _ _ _ hnot
  unfold parsecidr4
  simp only [hp]
  rw [if_pos (by omega)]
  simp only [Int.toNat_ofNat, cidrText]
  rw [List.take_left' rfl]
  rw [show (dottedQuad a b c d ++ 47 :: decimal n) = (dottedQuad a b c d ++ [47]) ++ decimal n
    by simp]
  rw [List.drop_left' (by simp)]
  rw [maskLoop_decimal n (by omega), loadip4_quad a b c d ha hb hc hd]
  simp only
  rw [shl32_mask n (by omega)]

theorem indexByte_dot_cidrText (a b c d n : Nat) (ha : a ≤ 255) :
    ¬ indexByte (cidrText a b c d n) 46 ≤ 0 := by
  obtain ⟨h, t, e, h1⟩ := decimal_octet_head a (by omega)
  have := indexByte_pos_of_head h 46 (t ++ 46 :: (decimal b ++ 46 :: (decimal c ++ 46 ::
    decimal d)) ++ 47 :: decimal n) (by omega) (by simp)
  simp only [cidrText, dottedQuad, e, List.cons_append]
  omega

/-- C4: for all octets `a b c d` in `[0,255]` and every prefix length `n` in `[0,32]`,
`addCidr` on `New()` with the canonical decimal text `"a.b.c.d/n"` returns no error and leaves
`mergedIntervals` equal to the single interval
`[a*2^24 + b*2^16 + c*2^8 + d, 2^32 - 2^(32-n)]`, whose second bound is the subnet mask. -/
theorem addCidr_New_cidrText (a b c d n : Nat) (ha : a ≤ 255) (hb : b ≤ 255) (hc : c ≤ 255)
    (hd : d ≤ 255) (hn : n ≤ 32) :
    (addCidr New (cidrText a b c d n)).2 = none ∧
      view (addCidr New (cidrText a b c d n)).1.heap
          (addCidr New (cidrText a b c d n)).1.mergedIntervals =
        [{ start := a * 2 ^ 24 + b * 2 ^ 16 + c * 2 ^ 8 + d, end_ := 2 ^ 32 - 2 ^ (32 - n) }] := by
  unfold addCidr addCidrByte
  rw [if_neg (indexByte_dot_cidrText a b c d n ha), parsecidr4_cidrText a b c d n ha hb hc hd hn]
  simp [insertNew, insert, New, view, deref]

/-- C4, at `"192.168.1.0/24"`: the interval is `[3232235776, 4294967040]`. -/
theorem addCidr_New_cidrText_witness :
    (addCidr New (cidrText 192 168 1 0 24)).2 = none ∧
      view (addCidr New (cidrText 192 168 1 0 24)).1.heap
          (addCidr New (cidrText 192 168 1 0 24)).1.mergedIntervals =
        [{ start := 3232235776, end_ := 4294967040 }] :=
  addCidr_New_cidrText 192 168 1 0 24 (by decide) (by decide) (by decide) (by decide)
    (by decide)

/-! ## The loops on values -/

theorem min_eq (a b : Nat) : min a b = Min.min a b := by
  unfold min; split <;> omega

theorem max_eq (a b : Nat) : max a b = Max.max a b := by
  unfold max; split <;> omega

theorem sweep_cons_lt (cur b : Interval) (rest : List Interval) (h : cur.end_ < b.start) :
    sweep cur (b :: rest) = cur :: sweep b rest := by
  rw [sweep, if_pos h]

theorem sweep_cons_ge (cur b : Interval) (rest : List Interval) (h : ¬ cur.end_ < b.start) :
    sweep cur (b :: rest) = sweep { start := cur.start, end_ := max cur.end_ b.end_ } rest := by
  rw [sweep, if_neg h]

theorem walk_cons_left (iv : Interval) (rest : List Interval) (l r : Nat) (m : Bool)
    (h1 : ¬ iv.start > r) (h2 : iv.end_ < l) :
    walk (iv :: rest) l r m = iv :: walk rest l r m := by
  rw [walk, if_neg h1, if_pos h2]

theorem walk_cons_absorb (iv : Interval) (rest : List Interval) (l r : Nat) (m : Bool)
    (h1 : ¬ iv.start > r) (h2 : ¬ iv.end_ < l) :
    walk (iv :: rest) l r m = walk rest (min l iv.start) (max r iv.end_) m := by
  rw [walk, if_neg h1, if_neg h2]

/-- Once the new interval is placed, intervals to its right are copied. -/
theorem walk_placed (M : List Interval) (l r : Nat) (h : ∀ iv ∈ M, r < iv.start) :
    walk M l r true = M := by
  induction M with
  | nil => rfl
  | cons iv M ih =>
    have h1 : iv.start > r := h iv (List.mem_cons_self _ _)
    rw [walk, if_pos h1, if_pos rfl, ih (fun x hx => h x (List.mem_cons_of_mem _ hx))]

/-- The new interval is placed in front of intervals that are all to its right. -/
theorem walk_front (M : List Interval) (l r : Nat) (h : ∀ iv ∈ M, r < iv.start) :
    walk M l r false = { start := l, end_ := r } :: M := by
  cases M with
  | nil => rfl
  | cons iv M =>
    have h1 : iv.start > r := h iv (List.mem_cons_self _ _)
    rw [walk, if_pos h1, if_neg (by simp),
      walk_placed M l r (fun x hx => h x (List.mem_cons_of_mem _ hx))]

/-- Every start in the output of `sweep` is the start of an input record. -/
theorem sweep_start (rest : List Interval) : ∀ (cur : Interval), ∀ iv ∈ sweep cur rest,
    iv.start = cur.start ∨ ∃ b ∈ rest, iv.start = b.start := by
  induction rest with
  | nil => intro cur iv h; simp only [sweep, List.mem_singleton] at h; exact Or.inl (by rw [h])
  | cons b rest ih =>
    intro cur iv h
    by_cases hc : cur.end_ < b.start
    · rw [sweep_cons_lt _ _ _ hc] at h
      rcases List.mem_cons.1 h with h | h
      · exact Or.inl (by rw [h])
      · rcases ih b iv h with h | ⟨x, hx, h⟩
        · exact Or.inr ⟨b, List.mem_cons_self _ _, h⟩
        · exact Or.inr ⟨x, List.mem_cons_of_mem _ hx, h⟩
    · rw [sweep_cons_ge _ _ _ hc] at h
      rcases ih _ iv h with h | ⟨x, hx, h⟩
      · exact Or.inl h
      · exact Or.inr ⟨x, List.mem_cons_of_mem _ hx, h⟩

/-- A record that ends before all that follow is kept by `sweep` as it is. -/
theorem sweep_of_gap (cur : Interval) (rest : List Interval)
    (h : ∀ b ∈ rest, cur.end_ < b.start) : sweep cur rest = cur :: sweepAll rest := by
  cases rest with
  | nil => rfl
  | cons b rest => rw [sweep_cons_lt _ _ _ (h b (List.mem_cons_self _ _))]; rfl

/-- The walk over the output of `sweep` absorbs the first record when it meets `[l, r]`. -/
theorem walk_sweep_absorb (T : List Interval) : ∀ (t : Interval) (l r : Nat),
    t.start ≤ r → l ≤ t.end_ → (∀ u ∈ T, t.start ≤ u.start) →
    T.Pairwise (fun a b => a.start ≤ b.start) → (∀ u ∈ T, u.start ≤ u.end_) →
    walk (sweep t T) l r false = walk (sweepAll T) (min l t.start) (max r t.end_) false := by
  induction T with
  | nil =>
    intro t l r h1 h2 _ _ _
    simp only [sweep, sweepAll]
    rw [walk_cons_absorb _ _ _ _ _ (by omega) (by omega)]
  | cons u T ih =>
    intro t l r h1 h2 hst hsort hnorm
    have hu : t.start ≤ u.start := hst u (List.mem_cons_self _ _)
    have hun : u.start ≤ u.end_ := hnorm u (List.mem_cons_self _ _)
    have hsort2 := (List.pairwise_cons.1 hsort)
    have hnorm2 : ∀ v ∈ T, v.start ≤ v.end_ := fun v hv => hnorm v (List.mem_cons_of_mem _ hv)
    by_cases hc : t.end_ < u.start
    · rw [sweep_cons_lt _ _ _ hc, walk_cons_absorb _ _ _ _ _ (by omega) (by omega)]
      rfl
    · rw [sweep_cons_ge _ _ _ hc]
      rw [ih { start := t.start, end_ := max t.end_ u.end_ } l r h1
        (by simp only [max_eq]; omega)
        (fun v hv => hst v (List.mem_cons_of_mem _ hv)) hsort2.2 hnorm2]
      show _ = walk (sweep u T) _ _ false
      rw [ih u (min l t.start) (max r t.end_) (by simp only [max_eq]; omega)
        (by simp only [min_eq]; omega) hsort2.1 hsort2.2 hnorm2]
      simp only [min_eq, max_eq]
      congr 1 <;> omega

/-- The walk of an interval that starts before all records over the output of `sweepAll` is
the sweep from that interval. -/
theorem walk_sweepAll_front (T : List Interval) : ∀ (l r : Nat),
    (∀ u ∈ T, l ≤ u.start) →
    T.Pairwise (fun a b => a.start ≤ b.start) → (∀ u ∈ T, u.start ≤ u.end_) →
    walk (sweepAll T) l r false = sweep { start := l, end_ := r } T := by
  induction T with
  | nil => intro l r _ _ _; rfl
  | cons t T ih =>
    intro l r hst hsort hnorm
    have ht : l ≤ t.start := hst t (List.mem_cons_self _ _)
    have hsort2 := (List.pairwise_cons.1 hsort)
    have hnorm2 : ∀ v ∈ T, v.start ≤ v.end_ := fun v hv => hnorm v (List.mem_cons_of_mem _ hv)
    by_cases hc : r < t.start
    · rw [sweep_cons_lt _ _ _ hc]
      show walk (sweep t T) l r false = _
      apply walk_front
      intro iv hiv
      rcases sweep_start T t iv hiv with h | ⟨b, hb, h⟩
      · omega
      · have := hsort2.1 b hb; omega
    · rw [sweep_cons_ge _ _ _ hc]
      show walk (sweep t T) l r false = _
      rw [walk_sweep_absorb T t l r (by omega)
        (by have := hnorm t (List.mem_cons_self _ _); omega) hsort2.1 hsort2.2 hnorm2]
      have hmin : min l t.start = l := by simp only [min_eq]; omega
      rw [hmin]
      exact ih l _ (fun u hu => hst u (List.mem_cons_of_mem _ hu)) hsort2.2 hnorm2

/-- Sweeping `x` right after `cur` is the walk of `x` over the sweep without it. -/
theorem sweep_cons_eq_walk (T : List Interval) (cur x : Interval)
    (hx : x.start ≤ x.end_) (hcx : cur.start ≤ x.start)
    (hst : ∀ u ∈ T, x.start ≤ u.start)
    (hsort : T.Pairwise (fun a b => a.start ≤ b.start)) (hnorm : ∀ u ∈ T, u.start ≤ u.end_) :
    sweep cur (x :: T) = walk (sweep cur T) x.start x.end_ false := by
  by_cases hc : cur.end_ < x.start
  · rw [sweep_cons_lt _ _ _ hc, sweep_of_gap cur T (fun b hb => by have := hst b hb; omega),
      walk_cons_left _ _ _ _ _ (by omega) hc, walk_sweepAll_front T _ _ hst hsort hnorm]
  · rw [sweep_cons_ge _ _ _ hc,
      walk_sweep_absorb T cur _ _ (by omega) (by omega)
        (fun u hu => by have := hst u hu; omega) hsort hnorm]
    have hmin : min x.start cur.start = cur.start := by simp only [min_eq]; omega
    have hmax : max x.end_ cur.end_ = max cur.end_ x.end_ := by simp only [max_eq]; omega
    rw [hmin, hmax, walk_sweepAll_front T _ _ (fun u hu => by have := hst u hu; omega)
      hsort hnorm]

theorem keyLe_start {a b : Interval} (h : keyLe a b) : a.start ≤ b.start := by
  simp only [keyLe, lessV, Bool.or_eq_false_iff, Bool.and_eq_false_iff, decide_eq_false_iff_not]
    at h
  omega

theorem start_le_of_not_keyLe {a b : Interval} (h : ¬ keyLe a b) : b.start ≤ a.start := by
  simp only [keyLe, lessV, Bool.not_eq_false, Bool.or_eq_true, Bool.and_eq_true,
    decide_eq_true_eq] at h
  omega

theorem pairwise_start_of_sorted {S : List Interval} (h : S.Sorted keyLe) :
    S.Pairwise (fun a b => a.start ≤ b.start) :=
  List.Pairwise.imp (fun h => keyLe_start h) h

/-- Sweeping with `x` put at its place in the sorted records is the walk of `x` over the
sweep without it. -/
theorem sweep_orderedInsert (T : List Interval) : ∀ (cur x : Interval),
    x.start ≤ x.end_ → cur.start ≤ cur.end_ → cur.start ≤ x.start →
    (∀ u ∈ T, cur.start ≤ u.start) → T.Sorted keyLe → (∀ u ∈ T, u.start ≤ u.end_) →
    sweep cur (T.orderedInsert keyLe x) = walk (sweep cur T) x.start x.end_ false := by
  induction T with
  | nil =>
    intro cur x hx hcur hcx _ _ _
    exact sweep_cons_eq_walk [] cur x hx hcx (by simp) List.Pairwise.nil (by simp)
  | cons b T ih =>
    intro cur x hx hcur hcx hst hsort hnorm
    have hsort2 := List.pairwise_cons.1 (pairwise_start_of_sorted hsort)
    have hb : cur.start ≤ b.start := hst b (List.mem_cons_self _ _)
    have hbn : b.start ≤ b.end_ := hnorm b (List.mem_cons_self _ _)
    have hnorm2 : ∀ v ∈ T, v.start ≤ v.end_ := fun v hv => hnorm v (List.mem_cons_of_mem _ hv)
    by_cases hk : keyLe x b
    · rw [List.orderedInsert, if_pos hk]
      apply sweep_cons_eq_walk (b :: T) cur x hx hcx _ (pairwise_start_of_sorted hsort)
        hnorm
      intro u hu
      have h1 := keyLe_start hk
      rcases List.mem_cons.1 hu with rfl | hu
      · exact h1
      · have := hsort2.1 u hu; omega
    · rw [List.orderedInsert, if_neg hk]
      have hbx : b.start ≤ x.start := start_le_of_not_keyLe hk
      by_cases hc : cur.end_ < b.start
      · rw [sweep_cons_lt _ _ _ hc, sweep_cons_lt _ _ _ hc,
          ih b x hx hbn hbx hsort2.1 (List.Sorted.of_cons hsort) hnorm2,
          walk_cons_left _ _ _ _ _ (by omega) (by omega)]
      · rw [sweep_cons_ge _ _ _ hc, sweep_cons_ge _ _ _ hc]
        exact ih _ x hx (by simp only [max_eq]; omega) hcx
          (fun u hu => hst u (List.mem_cons_of_mem _ hu)) (List.Sorted.of_cons hsort) hnorm2

/-- The incremental step and the bulk loop agree: sweeping the sorted records with `x` put at
its place is the walk of `x` over the sweep of the sorted records. -/
theorem sweepAll_orderedInsert (S : List Interval) (x : Interval) (hx : x.start ≤ x.end_)
    (hsort : S.Sorted keyLe) (hnorm : ∀ u ∈ S, u.start ≤ u.end_) :
    sweepAll (S.orderedInsert keyLe x) = walk (sweepAll S) x.start x.end_ false := by
  cases S with
  | nil => rfl
  | cons b S =>
    have hsort2 := List.pairwise_cons.1 (pairwise_start_of_sorted hsort)
    by_cases hk : keyLe x b
    · rw [List.orderedInsert, if_pos hk]
      show sweep x (b :: S) = _
      rw [walk_sweepAll_front (b :: S) x.start x.end_ _ (pairwise_start_of_sorted hsort) hnorm]
      intro u hu
      have h1 := keyLe_start hk
      rcases List.mem_cons.1 hu with rfl | hu
      · exact h1
      · have := hsort2.1 u hu; omega
    · rw [List.orderedInsert, if_neg hk]
      show sweep b (S.orderedInsert keyLe x) = walk (sweep b S) _ _ false
      exact sweep_orderedInsert S b x hx (hnorm b (List.mem_cons_self _ _))
        (start_le_of_not_keyLe hk) hsort2.1 (List.Sorted.of_cons hsort)
        (fun v hv => hnorm v (List.mem_cons_of_mem _ hv))

/-! ## The order of `sort.Slice` -/

theorem keyLe_iff (a b : Interval) :
    keyLe a b ↔ a.start < b.start ∨ (a.start = b.start ∧ a.end_ ≤ b.end_) := by
  simp only [keyLe, lessV, Bool.or_eq_false_iff, Bool.and_eq_false_iff, decide_eq_false_iff_not]
  omega

theorem keyLe_total : IsTotal Interval keyLe := ⟨fun a b => by
  rw [keyLe_iff, keyLe_iff]; omega⟩

theorem keyLe_trans : IsTrans Interval keyLe := ⟨fun a b c => by
  rw [keyLe_iff, keyLe_iff, keyLe_iff]; omega⟩

theorem keyLe_antisymm : IsAntisymm Interval keyLe := ⟨fun a b => by
  rw [keyLe_iff, keyLe_iff]
  intro h1 h2
  cases a; cases b
  simp only [Interval.mk.injEq] at *
  omega⟩

theorem sorted_sortV (L : List Interval) : (sortV L).Sorted keyLe := by
  haveI := keyLe_total
  haveI := keyLe_trans
  exact List.sorted_insertionSort keyLe L

theorem perm_sortV (L : List Interval) : (sortV L).Perm L :=
  List.perm_insertionSort keyLe L

/-- The sorted records depend only on the records, not on their order. -/
theorem sortV_perm {L1 L2 : List Interval} (h : L1.Perm L2) : sortV L1 = sortV L2 := by
  haveI := keyLe_antisymm
  exact List.eq_of_perm_of_sorted (((perm_sortV L1).trans h).trans (perm_sortV L2).symm)
    (sorted_sortV L1) (sorted_sortV L2)

theorem sortV_concat (L : List Interval) (x : Interval) :
    sortV (L ++ [x]) = (sortV L).orderedInsert keyLe x := by
  rw [sortV_perm (List.perm_append_singleton x L)]
  rfl

theorem normal_sortV {L : List Interval} (h : ∀ u ∈ L, u.start ≤ u.end_) :
    ∀ u ∈ sortV L, u.start ≤ u.end_ :=
  fun u hu => h u ((perm_sortV L).mem_iff.1 hu)

theorem incremental_concat (M L : List Interval) (x : Interval) :
    incremental M (L ++ [x]) = walk (incremental M L) x.start x.end_ false := by
  simp [incremental, List.foldl_append]

/-- Inserting records one after another into the empty list gives what the bulk loop gives on
the records, when every record has `start ≤ end`. -/
theorem incremental_eq_bulk (L : List Interval) (h : ∀ u ∈ L, u.start ≤ u.end_) :
    incremental [] L = bulk L := by
  induction L using List.reverseRecOn with
  | nil => rfl
  | append_singleton L x ih =>
    have hL : ∀ u ∈ L, u.start ≤ u.end_ := fun u hu => h u (List.mem_append_left _ hu)
    have hx : x.start ≤ x.end_ := h x (by simp)
    rw [incremental_concat, ih hL, bulk, bulk, sortV_concat,
      sweepAll_orderedInsert _ x hx (sorted_sortV L) (normal_sortV hL)]

/-- The bulk loop gives the same on a permutation of the records. -/
theorem bulk_perm {L1 L2 : List Interval} (h : L1.Perm L2) : bulk L1 = bulk L2 := by
  rw [bulk, bulk, sortV_perm h]

/-! ## Records behind addresses -/

theorem deref_append_left (h h2 : List Interval) (p : Nat) (hp : p < h.length) :
    deref (h ++ h2) p = deref h p := by
  unfold deref; exact List.getD_append h h2 default p hp

theorem deref_append_length (h : List Interval) (x : Interval) :
    deref (h ++ [x]) h.length = x := by
  unfold deref
  rw [List.getD_append_right h [x] default h.length (Nat.le_refl _)]
  simp

theorem deref_set_self (h : List Interval) (p : Nat) (v : Interval) (hp : p < h.length) :
    deref (h.set p v) p = v := by
  unfold deref
  simp [List.getD_eq_getElem?_getD, List.getElem?_set_self hp]

theorem deref_set_ne (h : List Interval) (p q : Nat) (v : Interval) (hq : p ≠ q) :
    deref (h.set p v) q = deref h q := by
  unfold deref
  simp [List.getD_eq_getElem?_getD, List.getElem?_set_ne hq]

theorem view_nil (h : List Interval) : view h [] = [] := rfl

theorem view_cons (h : List Interval) (p : Nat) (ps : List Nat) :
    view h (p :: ps) = deref h p :: view h ps := rfl

theorem view_append (h : List Interval) (ps qs : List Nat) :
    view h (ps ++ qs) = view h ps ++ view h qs := by
  simp [view]

theorem view_heap_append (h h2 : List Interval) (ps : List Nat)
    (hv : ∀ p ∈ ps, p < h.length) : view (h ++ h2) ps = view h ps := by
  unfold view
  exact List.map_congr_left (fun p hp => deref_append_left h h2 p (hv p hp))

theorem view_set_of_not_mem (h : List Interval) (p : Nat) (v : Interval) (ps : List Nat)
    (hp : p ∉ ps) : view (h.set p v) ps = view h ps := by
  unfold view
  exact List.map_congr_left (fun q hq => deref_set_ne h p q v (fun e => hp (e ▸ hq)))

/-! ## `insert` on records -/

/-- The loop of `insert` builds, behind the addresses, what `walk` builds on the records; it
only adds records to the heap. -/
theorem insertLoop_view (ps : List Nat) : ∀ (s : InsertState),
    (∀ p ∈ ps, p < s.heap.length) → (∀ p ∈ s.res, p < s.heap.length) →
    finishView (ps.foldl insertStep s) =
        view s.heap s.res ++ walk (view s.heap ps) s.left s.right s.merged ∧
      (∃ ext, (ps.foldl insertStep s).heap = s.heap ++ ext) ∧
      (∀ p ∈ (ps.foldl insertStep s).res, p < (ps.foldl insertStep s).heap.length) := by
  induction ps with
  | nil =>
    intro s _ hres
    refine ⟨?_, ⟨[], by simp⟩, hres⟩
    simp only [List.foldl_nil, finishView, view_nil, walk]
    cases s.merged with
    | true => simp
    | false =>
      simp only [Bool.false_eq_true, if_false, view_append, view_cons, view_nil,
        deref_append_length]
      rw [view_heap_append _ _ _ hres]
  | cons p ps ih =>
    intro s hps hres
    have hp : p < s.heap.length := hps p (List.mem_cons_self _ _)
    have hps2 : ∀ q ∈ ps, q < s.heap.length := fun q hq => hps q (List.mem_cons_of_mem _ hq)
    rw [List.foldl_cons, view_cons, walk]
    by_cases h1 : (deref s.heap p).start > s.right
    · cases hm : s.merged with
      | false =>
        have hstep : insertStep s p =
            { s with heap := s.heap ++ [{ start := s.left, end_ := s.right }],
                     res := s.res ++ [s.heap.length] ++ [p], merged := true } := by
          simp [insertStep, h1, hm]
        obtain ⟨e1, ⟨ext, e2⟩, e3⟩ := ih (insertStep s p)
          (by
            rw [hstep]; intro q hq
            show q < (s.heap ++ [({ start := s.left, end_ := s.right } : Interval)]).length
            have := hps2 q hq
            rw [List.length_append, List.length_singleton]; omega)
          (by
            rw [hstep]; intro q hq
            show q < (s.heap ++ [({ start := s.left, end_ := s.right } : Interval)]).length
            replace hq : q ∈ s.res ++ [s.heap.length] ++ [p] := hq
            rw [List.length_append, List.length_singleton]
            simp only [List.mem_append, List.mem_singleton] at hq
            rcases hq with (hq | hq) | hq
            · have := hres q hq; omega
            · omega
            · omega)
        refine ⟨?_, ⟨{ start := s.left, end_ := s.right } :: ext, ?_⟩, e3⟩
        · rw [e1, hstep, if_pos h1]
          simp only [Bool.false_eq_true, if_false, view_append, view_cons, view_nil,
            deref_append_length, List.append_assoc, List.cons_append, List.nil_append]
          rw [view_heap_append _ _ _ hres, view_heap_append _ _ _ hps2,
            deref_append_left _ _ _ hp]
        · rw [e2, hstep]; simp
      | true =>
        have hstep : insertStep s p = { s with res := s.res ++ [p] } := by
          simp [insertStep, h1, hm]
        obtain ⟨e1, ⟨ext, e2⟩, e3⟩ := ih (insertStep s p)
          (by rw [hstep]; exact hps2)
          (by
            rw [hstep]; intro q hq
            simp only [List.mem_append, List.mem_singleton] at hq
            rcases hq with hq | hq
            · exact hres q hq
            · rw [hq]; exact hp)
        refine ⟨?_, ⟨ext, ?_⟩, e3⟩
        · rw [e1, hstep, if_pos h1]
          simp [view_append, view_cons, view_nil, hm]
        · rw [e2, hstep]
    · by_cases h2 : (deref s.heap p).end_ < s.left
      · have hstep : insertStep s p = { s with res := s.res ++ [p] } := by
          simp [insertStep, h1, h2]
        obtain ⟨e1, ⟨ext, e2⟩, e3⟩ := ih (insertStep s p)
          (by rw [hstep]; exact hps2)
          (by
            rw [hstep]; intro q hq
            simp only [List.mem_append, List.mem_singleton] at hq
            rcases hq with hq | hq
            · exact hres q hq
            · rw [hq]; exact hp)
        refine ⟨?_, ⟨ext, ?_⟩, e3⟩
        · rw [e1, hstep, if_neg h1, if_pos h2]
          simp [view_append, view_cons, view_nil]
        · rw [e2, hstep]
      · have hstep : insertStep s p =
            { s with left := min s.left (deref s.heap p).start,
                     right := max s.right (deref s.heap p).end_ } := by
          simp [insertStep, h1, h2]
        obtain ⟨e1, ⟨ext, e2⟩, e3⟩ := ih (insertStep s p)
          (by rw [hstep]; exact hps2) (by rw [hstep]; exact hres)
        refine ⟨?_, ⟨ext, ?_⟩, e3⟩
        · rw [e1, hstep, if_neg h1, if_neg h2]
        · rw [e2, hstep]

/-- What `insert` does, on records: `mergedIntervals` becomes the `walk` of the new record
over it, the address is appended to `intervals`, and the heap only grows. -/
theorem insert_spec (u : Union) (p : Nat) (hm : ∀ q ∈ u.mergedIntervals, q < u.heap.length) :
    view (insert u p).1.heap (insert u p).1.mergedIntervals =
        walk (view u.heap u.mergedIntervals) (deref u.heap p).start (deref u.heap p).end_ false ∧
      (∃ ext, (insert u p).1.heap = u.heap ++ ext) ∧
      (∀ q ∈ (insert u p).1.mergedIntervals, q < (insert u p).1.heap.length) ∧
      (insert u p).1.intervals = u.intervals ++ [p] ∧ (insert u p).2 = none := by
  obtain ⟨e1, ⟨ext, e2⟩, e3⟩ := insertLoop_view u.mergedIntervals
    { heap := u.heap, left := (deref u.heap p).start, right := (deref u.heap p).end_,
      merged := false, res := [] } hm (by simp)
  simp only [view_nil, List.nil_append] at e1 e2
  unfold insert
  simp only
  cases hmg : (List.foldl insertStep
    { heap := u.heap, left := (deref u.heap p).start, right := (deref u.heap p).end_,
      merged := false, res := [] } u.mergedIntervals).merged with
  | false =>
    simp only [Bool.not_false, if_true]
    refine ⟨?_, ⟨ext ++ [_], by rw [e2, List.append_assoc]⟩, ?_, trivial, trivial⟩
    · rw [← e1, finishView, hmg]; simp
    · intro q hq
      rw [List.length_append, List.length_singleton]
      rcases List.mem_append.1 hq with hq | hq
      · have := e3 q hq; omega
      · rw [List.mem_singleton.1 hq]; omega
  | true =>
    simp only [Bool.not_true, Bool.false_eq_true, if_false]
    refine ⟨?_, ⟨ext, e2⟩, e3, trivial, trivial⟩
    rw [← e1, finishView, hmg]; simp

/-- What the call `insert(&Interval{start, end})` does, on records. -/
theorem insertNew_spec (u : Union) (a b : Nat)
    (hm : ∀ q ∈ u.mergedIntervals, q < u.heap.length) :
    view (insertNew u a b).1.heap (insertNew u a b).1.mergedIntervals =
        walk (view u.heap u.mergedIntervals) a b false ∧
      (∃ ext, (insertNew u a b).1.heap = u.heap ++ { start := a, end_ := b } :: ext) ∧
      (∀ q ∈ (insertNew u a b).1.mergedIntervals, q < (insertNew u a b).1.heap.length) ∧
      (insertNew u a b).1.intervals = u.intervals ++ [u.heap.length] ∧
      (insertNew u a b).2 = none := by
  have hm2 : ∀ q ∈ u.mergedIntervals,
      q < (u.heap ++ [({ start := a, end_ := b } : Interval)]).length := by
    intro q hq; have := hm q hq; rw [List.length_append, List.length_singleton]; omega
  obtain ⟨e1, ⟨ext, e2⟩, e3, e4, e5⟩ := insert_spec
    { u with heap := u.heap ++ [{ start := a, end_ := b }] } u.heap.length hm2
  simp only [deref_append_length] at e1
  rw [view_heap_append _ _ _ hm] at e1
  refine ⟨e1, ⟨ext, ?_⟩, e3, e4, e5⟩
  show (insert _ _).1.heap = _
  rw [e2]; simp

/-! ## `merge` on records -/

theorem mergeStep_nil (h : List Interval) (p : Nat) : mergeStep (h, []) p = (h, [p]) := rfl

theorem mergeStep_append (h : List Interval) (m0 : List Nat) (c p : Nat)
    (hc : (deref h c).end_ < (deref h p).start) :
    mergeStep (h, m0 ++ [c]) p = (h, m0 ++ [c] ++ [p]) := by
  simp only [mergeStep, List.getLast?_concat]
  rw [if_pos hc]

theorem mergeStep_write (h : List Interval) (m0 : List Nat) (c p : Nat)
    (hc : ¬ (deref h c).end_ < (deref h p).start) :
    mergeStep (h, m0 ++ [c]) p =
      (h.set c { start := (deref h c).start,
                 end_ := max (deref h c).end_ (deref h p).end_ }, m0 ++ [c]) := by
  simp only [mergeStep, List.getLast?_concat]
  rw [if_neg hc]

theorem set_deref_self (h : List Interval) : ∀ (c : Nat), h.set c (deref h c) = h := by
  induction h with
  | nil => intro c; rfl
  | cons x xs ih =>
    intro c
    cases c with
    | zero => rfl
    | succ c =>
      show x :: xs.set c (deref xs c) = x :: xs
      rw [ih c]

/-- The loop of `merge` builds, behind the addresses, what `sweep` builds on the records,
when the addresses are in the order in which `sort.Slice` leaves them. An address may occur
several times: a write through the last address of `mergedIntervals` changes no record that is
still to be read and no other record of `mergedIntervals`. -/
theorem mergeLoop_view (ps : List Nat) : ∀ (h : List Interval) (m0 : List Nat) (c : Nat),
    ps.Sorted (fun p q => keyLe (deref h p) (deref h q)) →
    (∀ q ∈ ps, (deref h c).start ≤ (deref h q).start) →
    (c ∈ m0 → (deref h c).end_ < (deref h c).start) →
    (∀ q ∈ m0, q ∈ ps → (deref h q).end_ < (deref h q).start) →
    c < h.length → (∀ p ∈ ps, p < h.length) →
    view (ps.foldl mergeStep (h, m0 ++ [c])).1 (ps.foldl mergeStep (h, m0 ++ [c])).2 =
      view h m0 ++ sweep (deref h c) (view h ps) := by
  induction ps with
  | nil =>
    intro h m0 c _ _ _ _ _ _
    simp [view_append, view_cons, view_nil, sweep]
  | cons p ps ih =>
    intro h m0 c hsort hb hd he hc hps
    have hp : p < h.length := hps p (List.mem_cons_self _ _)
    have hps2 : ∀ q ∈ ps, q < h.length := fun q hq => hps q (List.mem_cons_of_mem _ hq)
    have hsort2 := List.pairwise_cons.1 hsort
    have hcp : (deref h c).start ≤ (deref h p).start := hb p (List.mem_cons_self _ _)
    rw [List.foldl_cons, view_cons]
    by_cases hlt : (deref h c).end_ < (deref h p).start
    · rw [mergeStep_append h m0 c p hlt, sweep_cons_lt _ _ _ hlt,
        ih h (m0 ++ [c]) p hsort2.2 (fun q hq => keyLe_start (hsort2.1 q hq)) ?_ ?_ hp hps2,
        view_append]
      · simp [view_cons, view_nil]
      · intro hmem
        rcases List.mem_append.1 hmem with hmem | hmem
        · exact he p hmem (List.mem_cons_self _ _)
        · rw [List.mem_singleton.1 hmem]
          rw [List.mem_singleton.1 hmem] at hlt
          exact hlt
      · intro q hq hqps
        rcases List.mem_append.1 hq with hq | hq
        · exact he q hq (List.mem_cons_of_mem _ hqps)
        · rw [List.mem_singleton.1 hq]
          rw [List.mem_singleton.1 hq] at hqps
          have := keyLe_start (hsort2.1 c hqps)
          omega
    · rw [mergeStep_write h m0 c p hlt, sweep_cons_ge _ _ _ hlt]
      have hcm0 : c ∉ m0 := by
        intro hx
        have := hd hx
        omega
      by_cases hcin : c ∈ p :: ps
      · have hval : Interval.mk (deref h c).start (max (deref h c).end_ (deref h p).end_) =
            deref h c := by
          have hle : (deref h p).end_ ≤ (deref h c).end_ := by
            rcases List.mem_cons.1 hcin with hx | hx
            · rw [hx]
            · have := (keyLe_iff _ _).1 (hsort2.1 c hx)
              omega
          have hmax : max (deref h c).end_ (deref h p).end_ = (deref h c).end_ := by
            simp only [max_eq]; omega
          rw [hmax]
        rw [hval, set_deref_self]
        exact ih h m0 c hsort2.2 (fun q hq => hb q (List.mem_cons_of_mem _ hq)) hd
          (fun q hq hqps => he q hq (List.mem_cons_of_mem _ hqps)) hc hps2
      · have hcps : c ∉ ps := fun hx => hcin (List.mem_cons_of_mem _ hx)
        have hne : ∀ q ∈ ps, c ≠ q := fun q hq e => hcps (e ▸ hq)
        rw [ih _ m0 c ?_ ?_ (fun hx => absurd hx hcm0) ?_ (by rw [List.length_set]; exact hc)
          (by intro q hq; rw [List.length_set]; exact hps2 q hq)]
        · rw [view_set_of_not_mem _ _ _ _ hcm0, view_set_of_not_mem _ _ _ _ hcps,
            deref_set_self _ _ _ hc]
        · refine List.Pairwise.imp_of_mem ?_ hsort2.2
          intro a b ha hb2 hab
          rw [deref_set_ne _ _ _ _ (hne a ha), deref_set_ne _ _ _ _ (hne b hb2)]
          exact hab
        · intro q hq
          rw [deref_set_self _ _ _ hc, deref_set_ne _ _ _ _ (hne q hq)]
          exact hb q (List.mem_cons_of_mem _ hq)
        · intro q hq hqps
          rw [deref_set_ne _ _ _ _ (hne q hqps)]
          exact he q hq (List.mem_cons_of_mem _ hqps)

/-- The loop of `merge` never changes a `start` and never lowers an `end`. -/
theorem mergeLoop_mono (ps : List Nat) : ∀ (s : List Interval × List Nat) (q : Nat),
    (deref (ps.foldl mergeStep s).1 q).start = (deref s.1 q).start ∧
      (deref s.1 q).end_ ≤ (deref (ps.foldl mergeStep s).1 q).end_ ∧
      (ps.foldl mergeStep s).1.length = s.1.length := by
  induction ps with
  | nil => intro s q; simp
  | cons p ps ih =>
    intro s q
    rw [List.foldl_cons]
    obtain ⟨e1, e2, e3⟩ := ih (mergeStep s p) q
    have hstep : (deref (mergeStep s p).1 q).start = (deref s.1 q).start ∧
        (deref s.1 q).end_ ≤ (deref (mergeStep s p).1 q).end_ ∧
        (mergeStep s p).1.length = s.1.length := by
      unfold mergeStep
      cases s.2.getLast? with
      | none => simp
      | some c =>
        simp only
        by_cases hlt : (deref s.1 c).end_ < (deref s.1 p).start
        · rw [if_pos hlt]; simp
        · rw [if_neg hlt]
          simp only [List.length_set, and_true]
          by_cases hq : c = q
          · subst hq
            by_cases hv : c < s.1.length
            · rw [deref_set_self _ _ _ hv]
              simp only [max_eq, true_and]; omega
            · rw [List.set_eq_of_length_le (by omega)]
              simp
          · rw [deref_set_ne _ _ _ _ hq]; simp
    rw [e1, e3]
    exact ⟨hstep.1, le_trans hstep.2.1 e2, hstep.2.2⟩

/-- The addresses that the loop of `merge` leaves in `mergedIntervals` come from the log. -/
theorem mergeLoop_subset (ps : List Nat) : ∀ (s : List Interval × List Nat),
    ∀ q ∈ (ps.foldl mergeStep s).2, q ∈ s.2 ∨ q ∈ ps := by
  induction ps with
  | nil => intro s q hq; exact Or.inl hq
  | cons p ps ih =>
    intro s q hq
    rw [List.foldl_cons] at hq
    rcases ih _ q hq with h | h
    · have : q ∈ s.2 ∨ q = p := by
        unfold mergeStep at h
        cases hl : s.2.getLast? with
        | none => rw [hl] at h; simpa using h
        | some c =>
          rw [hl] at h
          simp only at h
          by_cases hlt : (deref s.1 c).end_ < (deref s.1 p).start
          · rw [if_pos hlt] at h; simpa using h
          · rw [if_neg hlt] at h; exact Or.inl h
      rcases this with h | h
      · exact Or.inl h
      · exact Or.inr (h ▸ List.mem_cons_self _ _)
    · exact Or.inr (List.mem_cons_of_mem _ h)

theorem view_sortSlice (h : List Interval) (ps : List Nat) :
    view h (sortSlice h ps) = sortV (view h ps) := by
  unfold view sortSlice sortV
  exact List.map_insertionSort _ keyLe (deref h) ps (fun a _ b _ => Iff.rfl)

theorem perm_sortSlice (h : List Interval) (ps : List Nat) : (sortSlice h ps).Perm ps :=
  List.perm_insertionSort _ ps

theorem sorted_sortSlice (h : List Interval) (ps : List Nat) :
    (sortSlice h ps).Sorted (fun p q => keyLe (deref h p) (deref h q)) := by
  haveI : IsTotal Nat (fun p q => keyLe (deref h p) (deref h q)) :=
    ⟨fun p q => keyLe_total.total (deref h p) (deref h q)⟩
  haveI : IsTrans Nat (fun p q => keyLe (deref h p) (deref h q)) :=
    ⟨fun p q r h1 h2 => keyLe_trans.trans (deref h p) (deref h q) (deref h r) h1 h2⟩
  exact List.sorted_insertionSort (fun p q => keyLe (deref h p) (deref h q)) ps

/-- The loop of `merge` after any sorting of the log: whatever order the sort leaves records
with the same `(start, end)` in, `mergedIntervals` becomes, on records, the bulk loop's output
on the records of the log. -/
theorem mergeLoop_spec (h : List Interval) (ps sorted : List Nat) (hperm : sorted.Perm ps)
    (hs : sorted.Sorted (fun p q => keyLe (deref h p) (deref h q)))
    (hv : ∀ p ∈ ps, p < h.length) :
    view (sorted.foldl mergeStep (h, [])).1 (sorted.foldl mergeStep (h, [])).2 =
      bulk (view h ps) := by
  haveI := keyLe_antisymm
  have hv2 : ∀ p ∈ sorted, p < h.length := fun p hp => hv p (hperm.mem_iff.1 hp)
  have hsv : (view h sorted).Sorted keyLe := by
    unfold view
    exact List.pairwise_map.2 hs
  have hpv : (view h sorted).Perm (view h ps) := by
    unfold view
    exact hperm.map _
  have hsort : sortV (view h ps) = view h sorted :=
    List.eq_of_perm_of_sorted ((perm_sortV _).trans hpv.symm) (sorted_sortV _) hsv
  rw [bulk, hsort]
  cases sorted with
  | nil => rfl
  | cons p ps2 =>
    have hsort2 := List.pairwise_cons.1 hs
    rw [List.foldl_cons, mergeStep_nil]
    have := mergeLoop_view ps2 h [] p hsort2.2
      (fun q hq => keyLe_start (hsort2.1 q hq)) (by simp) (by simp)
      (hv2 p (List.mem_cons_self _ _)) (fun q hq => hv2 q (List.mem_cons_of_mem _ hq))
    simp only [List.nil_append, view_nil] at this
    rw [this]
    rfl

/-- What `merge` does, on records: `mergedIntervals` becomes the bulk loop's output on the
records of the log. -/
theorem merge_spec (u : Union) (hv : ∀ p ∈ u.intervals, p < u.heap.length) :
    view (merge u).1.heap (merge u).1.mergedIntervals = bulk (view u.heap u.intervals) :=
  mergeLoop_spec u.heap u.intervals (sortSlice u.heap u.intervals)
    (perm_sortSlice u.heap u.intervals) (sorted_sortSlice u.heap u.intervals) hv

/-- The in-place writes of `merge` leave the set of values covered by the records of the log
as it was. -/
theorem mergeLoop_cover (L : List Nat) (t : Nat) (ps : List Nat) :
    ∀ (s : List Interval × List Nat), (∀ q ∈ s.2, q ∈ L) → (∀ q ∈ ps, q ∈ L) →
    ((∃ q ∈ L, covers (deref (ps.foldl mergeStep s).1 q) t) ↔
      (∃ q ∈ L, covers (deref s.1 q) t)) := by
  induction ps with
  | nil => intro s _ _; rfl
  | cons p ps ih =>
    intro s hm hps
    have hp : p ∈ L := hps p (List.mem_cons_self _ _)
    rw [List.foldl_cons]
    have hsub : ∀ q ∈ (mergeStep s p).2, q ∈ L := by
      intro q hq
      rcases mergeLoop_subset [p] s q hq with h | h
      · exact hm q h
      · rw [List.mem_singleton.1 h]; exact hp
    rw [ih (mergeStep s p) hsub (fun q hq => hps q (List.mem_cons_of_mem _ hq))]
    unfold mergeStep
    cases hl : s.2.getLast? with
    | none => rfl
    | some c =>
      have hc : c ∈ L := hm c (List.mem_of_mem_getLast? hl)
      simp only
      by_cases hlt : (deref s.1 c).end_ < (deref s.1 p).start
      · rw [if_pos hlt]
      · rw [if_neg hlt]
        simp only
        by_cases hvc : c < s.1.length
        · constructor
          · rintro ⟨q, hq, hcov⟩
            by_cases hqc : c = q
            · subst hqc
              rw [deref_set_self _ _ _ hvc] at hcov
              simp only [covers, max_eq] at hcov
              by_cases ht : t ≤ (deref s.1 c).end_
              · exact ⟨c, hc, ⟨hcov.1, ht⟩⟩
              · exact ⟨p, hp, ⟨by omega, by omega⟩⟩
            · rw [deref_set_ne _ _ _ _ hqc] at hcov
              exact ⟨q, hq, hcov⟩
          · rintro ⟨q, hq, hcov⟩
            by_cases hqc : c = q
            · subst hqc
              refine ⟨c, hc, ?_⟩
              rw [deref_set_self _ _ _ hvc]
              simp only [covers, max_eq] at hcov ⊢
              omega
            · refine ⟨q, hq, ?_⟩
              rw [deref_set_ne _ _ _ _ hqc]
              exact hcov
        · rw [List.set_eq_of_length_le (by omega)]

/-! ## Order and cover of the bulk loop's output -/

theorem sweep_head (rest : List Interval) : ∀ (cur : Interval),
    ∀ y ∈ (sweep cur rest).head?, y.start = cur.start := by
  induction rest with
  | nil => intro cur y hy; simp only [sweep, List.head?_cons, Option.mem_def,
      Option.some.injEq] at hy; rw [← hy]
  | cons b rest ih =>
    intro cur y hy
    by_cases hc : cur.end_ < b.start
    · rw [sweep_cons_lt _ _ _ hc] at hy
      simp only [List.head?_cons, Option.mem_def, Option.some.injEq] at hy; rw [← hy]
    · rw [sweep_cons_ge _ _ _ hc] at hy
      exact ih { start := cur.start, end_ := max cur.end_ b.end_ } y hy

/-- The output of `sweep` on records sorted by `start`, each with `start ≤ end`: each record
has `start ≤ end` and ends before the next one starts. -/
theorem sweep_separated (rest : List Interval) : ∀ (cur : Interval),
    cur.start ≤ cur.end_ → (∀ u ∈ rest, u.start ≤ u.end_) →
    rest.Pairwise (fun a b => a.start ≤ b.start) →
    (∀ iv ∈ sweep cur rest, iv.start ≤ iv.end_) ∧
      (sweep cur rest).Chain' (fun a b => a.end_ < b.start) := by
  induction rest with
  | nil =>
    intro cur hcur _ _
    simp only [sweep, List.mem_singleton, List.chain'_singleton, and_true]
    intro iv hiv; rw [hiv]; exact hcur
  | cons b rest ih =>
    intro cur hcur hnorm hsort
    have hb : b.start ≤ b.end_ := hnorm b (List.mem_cons_self _ _)
    have hnorm2 : ∀ v ∈ rest, v.start ≤ v.end_ :=
      fun v hv => hnorm v (List.mem_cons_of_mem _ hv)
    have hsort2 := List.pairwise_cons.1 hsort
    by_cases hc : cur.end_ < b.start
    · rw [sweep_cons_lt _ _ _ hc]
      obtain ⟨i1, i2⟩ := ih b hb hnorm2 hsort2.2
      refine ⟨?_, ?_⟩
      · intro iv hiv
        rcases List.mem_cons.1 hiv with h | h
        · rw [h]; exact hcur
        · exact i1 iv h
      · rw [List.chain'_cons']
        refine ⟨?_, i2⟩
        intro y hy
        rw [sweep_head rest b y hy]; exact hc
    · rw [sweep_cons_ge _ _ _ hc]
      exact ih _ (by simp only [max_eq]; omega) hnorm2 hsort2.2

/-- The output of `sweep` on records sorted by `start` covers the values that the records
cover. -/
theorem sweep_covers (t : Nat) (rest : List Interval) : ∀ (cur : Interval),
    (∀ u ∈ rest, cur.start ≤ u.start) → rest.Pairwise (fun a b => a.start ≤ b.start) →
    ((∃ iv ∈ sweep cur rest, covers iv t) ↔ (covers cur t ∨ ∃ u ∈ rest, covers u t)) := by
  induction rest with
  | nil => intro cur _ _; simp [sweep]
  | cons b rest ih =>
    intro cur hst hsort
    have hb : cur.start ≤ b.start := hst b (List.mem_cons_self _ _)
    have hsort2 := List.pairwise_cons.1 hsort
    by_cases hc : cur.end_ < b.start
    · rw [sweep_cons_lt _ _ _ hc]
      simp only [List.exists_mem_cons_iff, ih b hsort2.1 hsort2.2]
    · rw [sweep_cons_ge _ _ _ hc,
        ih { start := cur.start, end_ := max cur.end_ b.end_ }
          (fun u hu => hst u (List.mem_cons_of_mem _ hu)) hsort2.2]
      simp only [List.exists_mem_cons_iff, ← or_assoc]
      apply or_congr_left
      simp only [covers, max_eq]
      omega

theorem sweepAll_separated (S : List Interval) (hnorm : ∀ u ∈ S, u.start ≤ u.end_)
    (hsort : S.Pairwise (fun a b => a.start ≤ b.start)) :
    (∀ iv ∈ sweepAll S, iv.start ≤ iv.end_) ∧
      (sweepAll S).Chain' (fun a b => a.end_ < b.start) := by
  cases S with
  | nil => simp [sweepAll]
  | cons a S =>
    exact sweep_separated S a (hnorm a (List.mem_cons_self _ _))
      (fun v hv => hnorm v (List.mem_cons_of_mem _ hv)) (List.pairwise_cons.1 hsort).2

theorem sweepAll_covers (t : Nat) (S : List Interval)
    (hsort : S.Pairwise (fun a b => a.start ≤ b.start)) :
    (∃ iv ∈ sweepAll S, covers iv t) ↔ ∃ u ∈ S, covers u t := by
  cases S with
  | nil => simp [sweepAll]
  | cons a S =>
    have h2 := List.pairwise_cons.1 hsort
    show (∃ iv ∈ sweep a S, covers iv t) ↔ _
    rw [sweep_covers t S a h2.1 h2.2]
    simp only [List.exists_mem_cons_iff]

/-! ## The walk over separated records -/

theorem separated_tail {a : Interval} {M : List Interval} (h : separated (a :: M)) :
    separated M :=
  ⟨fun iv hiv => h.1 iv (List.mem_cons_of_mem _ hiv), (List.chain'_cons'.1 h.2).2⟩

/-- The bulk loop leaves separated records as they are. -/
theorem sweepAll_of_separated (M : List Interval) (h : separated M) : sweepAll M = M := by
  induction M with
  | nil => rfl
  | cons a M ih =>
    cases M with
    | nil => rfl
    | cons b M =>
      have hab : a.end_ < b.start := (List.chain'_cons.1 h.2).1
      show sweep a (b :: M) = _
      rw [sweep_cons_lt _ _ _ hab]
      congr 1
      exact ih (separated_tail h)

theorem sorted_of_separated (M : List Interval) (h : separated M) : M.Sorted keyLe := by
  haveI := keyLe_trans
  have hc : M.Chain' keyLe := by
    induction M with
    | nil => exact List.chain'_nil
    | cons a M ih =>
      cases M with
      | nil => exact List.chain'_singleton a
      | cons b M =>
        have hab : a.end_ < b.start := (List.chain'_cons.1 h.2).1
        have ha : a.start ≤ a.end_ := h.1 a (List.mem_cons_self _ _)
        exact List.chain'_cons.2 ⟨(keyLe_iff a b).2 (by omega), ih (separated_tail h)⟩
  exact List.chain'_iff_pairwise.1 hc

/-- The walk of `[l, r]` over separated records is the bulk loop on the records with
`[l, r]` put at its place. -/
theorem walk_eq_sweepAll (M : List Interval) (l r : Nat) (h : separated M) (hlr : l ≤ r) :
    walk M l r false = sweepAll (M.orderedInsert keyLe { start := l, end_ := r }) := by
  rw [sweepAll_orderedInsert M { start := l, end_ := r } hlr (sorted_of_separated M h) h.1,
    sweepAll_of_separated M h]

/-- The walk keeps the records separated. -/
theorem walk_separated (M : List Interval) (l r : Nat) (h : separated M) (hlr : l ≤ r) :
    separated (walk M l r false) := by
  haveI := keyLe_total
  haveI := keyLe_trans
  rw [walk_eq_sweepAll M l r h hlr]
  apply sweepAll_separated
  · intro u hu
    rcases (List.mem_orderedInsert keyLe).1 hu with hu | hu
    · rw [hu]; exact hlr
    · exact h.1 u hu
  · exact pairwise_start_of_sorted
      (List.Sorted.orderedInsert _ M (sorted_of_separated M h))

/-- The walk covers what the records covered and `[l, r]`, nothing else. -/
theorem walk_covers (M : List Interval) (l r t : Nat) (h : separated M) (hlr : l ≤ r) :
    (∃ iv ∈ walk M l r false, covers iv t) ↔ ((∃ iv ∈ M, covers iv t) ∨ (l ≤ t ∧ t ≤ r)) := by
  haveI := keyLe_total
  haveI := keyLe_trans
  rw [walk_eq_sweepAll M l r h hlr, sweepAll_covers t _ (pairwise_start_of_sorted
      (List.Sorted.orderedInsert _ M (sorted_of_separated M h)))]
  constructor
  · rintro ⟨u, hu, hc⟩
    rcases (List.mem_orderedInsert keyLe).1 hu with hu | hu
    · subst hu; exact Or.inr hc
    · exact Or.inl ⟨u, hu, hc⟩
  · rintro (⟨u, hu, hc⟩ | hc)
    · exact ⟨u, (List.mem_orderedInsert keyLe).2 (Or.inr hu), hc⟩
    · exact ⟨_, (List.mem_orderedInsert keyLe).2 (Or.inl rfl), hc⟩

/-- Separated records are in strictly ascending order of `start`. -/
theorem separated_sorted_start (M : List Interval) (h : separated M) :
    M.Sorted (fun a b => a.start < b.start) := by
  have hc : M.Chain' (fun a b => a.start < b.start) := by
    induction M with
    | nil => exact List.chain'_nil
    | cons a M ih =>
      cases M with
      | nil => exact List.chain'_singleton a
      | cons b M =>
        have hab : a.end_ < b.start := (List.chain'_cons.1 h.2).1
        have ha : a.start ≤ a.end_ := h.1 a (List.mem_cons_self _ _)
        exact List.chain'_cons.2 ⟨by omega, ih (separated_tail h)⟩
  haveI : IsTrans Interval (fun a b => a.start < b.start) := ⟨fun a b c h1 h2 => by omega⟩
  exact List.chain'_iff_pairwise.1 hc

/-! ## Unions built from well-formed intervals -/

theorem exists_view_iff (h : List Interval) (ps : List Nat) (t : Nat) :
    (∃ iv ∈ view h ps, covers iv t) ↔ ∃ p ∈ ps, covers (deref h p) t := by
  simp [view]

theorem Inv_New : Inv New := by
  refine ⟨by simp [New], by simp [New], by simp [New], ?_, by simp [New, view]⟩
  exact ⟨by simp [New, view], by simp [New, view]⟩

/-- New records in the heap change nothing for the union. -/
theorem Inv_alloc (u : Union) (ext : List Interval) (hu : Inv u) :
    Inv { u with heap := u.heap ++ ext } := by
  obtain ⟨i1, i2, i4, i5, i6⟩ := hu
  have hlen : u.heap.length ≤ (u.heap ++ ext).length := by simp
  refine ⟨fun p hp => lt_of_lt_of_le (i1 p hp) hlen, fun p hp => lt_of_lt_of_le (i2 p hp) hlen,
    ?_, ?_, ?_⟩
  · intro p hp
    show (deref (u.heap ++ ext) p).start ≤ (deref (u.heap ++ ext) p).end_
    rw [deref_append_left _ _ p (i1 p hp)]; exact i4 p hp
  · show separated (view (u.heap ++ ext) u.mergedIntervals)
    rw [view_heap_append _ _ _ i2]; exact i5
  · intro t
    show (∃ p ∈ u.intervals, covers (deref (u.heap ++ ext) p) t) ↔
      ∃ iv ∈ view (u.heap ++ ext) u.mergedIntervals, covers iv t
    rw [view_heap_append _ _ _ i2, ← i6 t]
    constructor
    · rintro ⟨p, hp, hc⟩
      exact ⟨p, hp, by rw [deref_append_left _ _ p (i1 p hp)] at hc; exact hc⟩
    · rintro ⟨p, hp, hc⟩
      exact ⟨p, hp, by rw [deref_append_left _ _ p (i1 p hp)]; exact hc⟩

theorem Inv_insert (u : Union) (p : Nat) (hp : p < u.heap.length)
    (hn : (deref u.heap p).start ≤ (deref u.heap p).end_) (hu : Inv u) :
    Inv (insert u p).1 := by
  obtain ⟨i1, i2, i4, i5, i6⟩ := hu
  obtain ⟨e1, ⟨ext, e2⟩, e3, e4, _⟩ := insert_spec u p i2
  have hold : ∀ q, q < u.heap.length → deref (insert u p).1.heap q = deref u.heap q :=
    fun q hq => by rw [e2]; exact deref_append_left _ _ q hq
  have hlen : u.heap.length ≤ (insert u p).1.heap.length := by
    rw [e2]; simp
  have hmem : ∀ q ∈ (insert u p).1.intervals, q < u.heap.length := by
    intro q hq
    rw [e4] at hq
    rcases List.mem_append.1 hq with hq | hq
    · exact i1 q hq
    · rw [List.mem_singleton.1 hq]; exact hp
  refine ⟨fun q hq => lt_of_lt_of_le (hmem q hq) hlen, e3, ?_, ?_, ?_⟩
  · intro q hq
    rw [hold q (hmem q hq)]
    rw [e4] at hq
    rcases List.mem_append.1 hq with hq | hq
    · exact i4 q hq
    · rw [List.mem_singleton.1 hq]; exact hn
  · rw [e1]; exact walk_separated _ _ _ i5 hn
  · intro t
    rw [e1, walk_covers _ _ _ t i5 hn, ← i6 t]
    constructor
    · rintro ⟨q, hq, hc⟩
      rw [hold q (hmem q hq)] at hc
      rw [e4] at hq
      rcases List.mem_append.1 hq with hq | hq
      · exact Or.inl ⟨q, hq, hc⟩
      · rw [List.mem_singleton.1 hq] at hc; exact Or.inr hc
    · rintro (⟨q, hq, hc⟩ | hc)
      · exact ⟨q, by rw [e4]; exact List.mem_append_left _ hq,
          by rw [hold q (i1 q hq)]; exact hc⟩
      · exact ⟨p, by rw [e4]; exact List.mem_append_right _ (List.mem_singleton.2 rfl),
          by rw [hold p hp]; exact hc⟩

theorem Inv_insertNew (u : Union) (a b : Nat) (hab : a ≤ b) (hu : Inv u) :
    Inv (insertNew u a b).1 := by
  unfold insertNew
  apply Inv_insert _ _ _ _ (Inv_alloc u [{ start := a, end_ := b }] hu)
  · show u.heap.length < (u.heap ++ [({ start := a, end_ := b } : Interval)]).length
    simp
  · show (deref (u.heap ++ [{ start := a, end_ := b }]) u.heap.length).start ≤
      (deref (u.heap ++ [{ start := a, end_ := b }]) u.heap.length).end_
    rw [deref_append_length]; exact hab

theorem Inv_merge (u : Union) (hu : Inv u) : Inv (merge u).1 := by
  obtain ⟨i1, i2, i4, i5, i6⟩ := hu
  have hspec := merge_spec u i1
  have hperm := perm_sortSlice u.heap u.intervals
  have hmono := mergeLoop_mono (sortSlice u.heap u.intervals) (u.heap, [])
  have hsub := mergeLoop_subset (sortSlice u.heap u.intervals) (u.heap, [])
  have hheap : (merge u).1.heap =
      ((sortSlice u.heap u.intervals).foldl mergeStep (u.heap, [])).1 := rfl
  have hlog : (merge u).1.intervals = sortSlice u.heap u.intervals := rfl
  have hmer : (merge u).1.mergedIntervals =
      ((sortSlice u.heap u.intervals).foldl mergeStep (u.heap, [])).2 := rfl
  have hlen : (merge u).1.heap.length = u.heap.length := by
    rw [hheap]; exact (hmono 0).2.2
  have hnormV : ∀ iv ∈ view u.heap u.intervals, iv.start ≤ iv.end_ := by
    intro iv hiv
    obtain ⟨p, hp, rfl⟩ := List.mem_map.1 hiv
    exact i4 p hp
  refine ⟨?_, ?_, ?_, ?_, ?_⟩
  · intro p hp
    rw [hlog] at hp
    rw [hlen]; exact i1 p (hperm.mem_iff.1 hp)
  · intro q hq
    rw [hmer] at hq
    rw [hlen]
    rcases hsub q hq with h | h
    · cases h
    · exact i1 q (hperm.mem_iff.1 h)
  · intro p hp
    rw [hlog] at hp
    have := i4 p (hperm.mem_iff.1 hp)
    have h1 := (hmono p).1
    have h2 := (hmono p).2.1
    rw [hheap]
    simp only at h1 h2
    omega
  · rw [hspec]
    exact sweepAll_separated _ (normal_sortV hnormV)
      (pairwise_start_of_sorted (sorted_sortV _))
  · intro t
    rw [hspec, bulk, sweepAll_covers t _ (pairwise_start_of_sorted (sorted_sortV _)),
      hlog, hheap,
      mergeLoop_cover (sortSlice u.heap u.intervals) t (sortSlice u.heap u.intervals)
        (u.heap, []) (by simp) (fun q hq => hq)]
    simp only
    rw [← exists_view_iff, view_sortSlice]

theorem addCidr_eq_insertNew (u : Union) (cidr : List Nat) (a b : Nat)
    (hok : (addCidr u cidr).2 = none) (hp : parsecidr4 cidr = .ok (a, b)) :
    addCidr u cidr = insertNew u a b := by
  unfold addCidr addCidrByte at hok ⊢
  by_cases hi : indexByte cidr 46 ≤ 0
  · rw [if_pos hi] at hok; cases hok
  · rw [if_neg hi, hp]

/-- Every union built from well-formed intervals satisfies `Inv`. -/
theorem Inv_of_ReachableWF (u : Union) (h : ReachableWF u) : Inv u := by
  induction h with
  | new => exact Inv_New
  | alloc u ext _ ih => exact Inv_alloc u ext ih
  | addCidr u cidr a b _ hok hp hab ih =>
    rw [addCidr_eq_insertNew u cidr a b hok hp]
    exact Inv_insertNew u a b hab ih
  | insert u a b _ hab ih => exact Inv_insertNew u a b hab ih
  | insertAt u p _ hp hn ih => exact Inv_insert u p hp hn ih
  | merge u _ ih => exact Inv_merge u ih

theorem find_iff (u : Union) (t : Nat) :
    find u t = true ↔ ∃ p ∈ u.intervals, covers (deref u.heap p) t := by
  simp [find, covers]

/-- Calling `insert` on the intervals one after another is, on records, `incremental`. -/
theorem insertAll_spec (L : List Interval) : ∀ (u : Union),
    (∀ q ∈ u.mergedIntervals, q < u.heap.length) →
    view (insertAll u L).heap (insertAll u L).mergedIntervals =
      incremental (view u.heap u.mergedIntervals) L := by
  induction L with
  | nil => intro u _; rfl
  | cons x L ih =>
    intro u hu
    obtain ⟨e1, _, e3, _, _⟩ := insertNew_spec u x.start x.end_ hu
    show view (insertAll (insertNew u x.start x.end_).1 L).heap
      (insertAll (insertNew u x.start x.end_).1 L).mergedIntervals = _
    rw [ih _ e3, e1]
    rfl

/-! ## The claims about the union -/

set_option maxRecDepth 100000 in
/-- C5, as stated, fails: after `addCidr("2.0.0.0/2")`, `addCidr("255.0.0.0/0")` and
`addCidr("1.0.0.0/1")` on `New()`, which all return no error, `find(2147483649)` is true (the
log holds `[33554432, 3221225472]`) and no interval of `mergedIntervals`, which is
`[16777216, 2147483648], [4278190080, 0]`, contains 2147483649. -/
theorem find_mergedIntervals_counterexample :
    (addCidr New (cidrText 2 0 0 0 2)).2 = none ∧
    (addCidr (addCidr New (cidrText 2 0 0 0 2)).1 (cidrText 255 0 0 0 0)).2 = none ∧
    (addCidr (addCidr (addCidr New (cidrText 2 0 0 0 2)).1 (cidrText 255 0 0 0 0)).1
      (cidrText 1 0 0 0 1)).2 = none ∧
    find (addCidr (addCidr (addCidr New (cidrText 2 0 0 0 2)).1 (cidrText 255 0 0 0 0)).1
      (cidrText 1 0 0 0 1)).1 2147483649 = true ∧
    ¬ ∃ iv ∈ view
        (addCidr (addCidr (addCidr New (cidrText 2 0 0 0 2)).1 (cidrText 255 0 0 0 0)).1
          (cidrText 1 0 0 0 1)).1.heap
        (addCidr (addCidr (addCidr New (cidrText 2 0 0 0 2)).1 (cidrText 255 0 0 0 0)).1
          (cidrText 1 0 0 0 1)).1.mergedIntervals,
      iv.start ≤ 2147483649 ∧ 2147483649 ≤ iv.end_ := by
  decide

/-- C5, amended: for every union built from `New()` by calls of `addCidr` that return no
error, calls of `insert` and calls of `merge`, in which every inserted interval has
`start ≤ end`, and for every target, `find(target)` is true if and only if some interval of
`mergedIntervals` has `start ≤ target ≤ end`. -/
theorem find_iff_mergedIntervals (u : Union) (h : ReachableWF u) (target : Nat) :
    find u target = true ↔
      ∃ iv ∈ view u.heap u.mergedIntervals, iv.start ≤ target ∧ target ≤ iv.end_ := by
  rw [find_iff]
  exact (Inv_of_ReachableWF u h).2.2.2.2 target

/-- C5, amended, at `[100, 200]` inserted into `New()` and the target 150. -/
theorem find_iff_mergedIntervals_witness :
    find (insertNew New 100 200).1 150 = true ↔
      ∃ iv ∈ view (insertNew New 100 200).1.heap (insertNew New 100 200).1.mergedIntervals,
        iv.start ≤ 150 ∧ 150 ≤ iv.end_ :=
  find_iff_mergedIntervals (insertNew New 100 200).1
    (ReachableWF.insert New 100 200 ReachableWF.new (by decide)) 150

set_option maxRecDepth 100000 in
/-- C6, as stated, fails: after `addCidr("2.0.0.0/2")` and `addCidr("255.0.0.0/0")` on
`New()`, which return no error, `mergedIntervals` is
`[4278190080, 0], [33554432, 3221225472]`, which is not in ascending order of `start`. -/
theorem mergedIntervals_sorted_counterexample :
    (addCidr New (cidrText 2 0 0 0 2)).2 = none ∧
    (addCidr (addCidr New (cidrText 2 0 0 0 2)).1 (cidrText 255 0 0 0 0)).2 = none ∧
    view (addCidr (addCidr New (cidrText 2 0 0 0 2)).1 (cidrText 255 0 0 0 0)).1.heap
        (addCidr (addCidr New (cidrText 2 0 0 0 2)).1 (cidrText 255 0 0 0 0)).1.mergedIntervals =
      [{ start := 4278190080, end_ := 0 }, { start := 33554432, end_ := 3221225472 }] ∧
    ¬ (view (addCidr (addCidr New (cidrText 2 0 0 0 2)).1 (cidrText 255 0 0 0 0)).1.heap
        (addCidr (addCidr New (cidrText 2 0 0 0 2)).1
          (cidrText 255 0 0 0 0)).1.mergedIntervals).Sorted
      (fun a b => a.start < b.start) := by
  decide

/-- C6, amended: starting from `New()`, after every `addCidr` call that returns no error and
after every `merge` call (and every `insert` call), in any sequence in which every inserted
interval has `start ≤ end`, `mergedIntervals` is sorted strictly ascending by `start` and
every interval's `end` is strictly less than the `start` of the interval that follows it. -/
theorem mergedIntervals_sorted (u : Union) (h : ReachableWF u) :
    (view u.heap u.mergedIntervals).Sorted (fun a b => a.start < b.start) ∧
      (view u.heap u.mergedIntervals).Chain' (fun a b => a.end_ < b.start) :=
  ⟨separated_sorted_start _ (Inv_of_ReachableWF u h).2.2.2.1,
    (Inv_of_ReachableWF u h).2.2.2.1.2⟩

set_option maxRecDepth 100000 in
/-- C6, amended, at `addCidr("192.0.0.0/2")`, `addCidr("0.0.0.0/0")`,
`addCidr("224.0.0.0/3")` and `merge()` on `New()`: the three calls insert
`[3221225472, 3221225472]`, `[0, 0]` and `[3758096384, 3758096384]`, and `mergedIntervals` is
these three intervals in ascending order, each ending before the next one starts. -/
theorem mergedIntervals_sorted_witness :
    view threeCidrs.heap threeCidrs.mergedIntervals =
        [⟨0, 0⟩, ⟨3221225472, 3221225472⟩, ⟨3758096384, 3758096384⟩] ∧
      ((view threeCidrs.heap threeCidrs.mergedIntervals).Sorted
          (fun a b => a.start < b.start) ∧
        (view threeCidrs.heap threeCidrs.mergedIntervals).Chain'
          (fun a b => a.end_ < b.start)) :=
  ⟨by decide,
    mergedIntervals_sorted threeCidrs
      (ReachableWF.merge _
        (ReachableWF.addCidr _ (cidrText 224 0 0 0 3) 3758096384 3758096384
          (ReachableWF.addCidr _ (cidrText 0 0 0 0 0) 0 0
            (ReachableWF.addCidr New (cidrText 192 0 0 0 2) 3221225472 3221225472
              ReachableWF.new (by decide) (by decide) (by decide))
            (by decide) (by decide) (by decide))
          (by decide) (by decide) (by decide)))⟩

set_option maxRecDepth 100000 in
/-- Before the call of `merge()` in the example above, after the three calls of `addCidr`
alone, `mergedIntervals` is already these three intervals in this order. -/
theorem mergedIntervals_three_cidrs_example :
    view (addCidr (addCidr (addCidr New (cidrText 192 0 0 0 2)).1 (cidrText 0 0 0 0 0)).1
          (cidrText 224 0 0 0 3)).1.heap
        (addCidr (addCidr (addCidr New (cidrText 192 0 0 0 2)).1 (cidrText 0 0 0 0 0)).1
          (cidrText 224 0 0 0 3)).1.mergedIntervals =
      [⟨0, 0⟩, ⟨3221225472, 3221225472⟩, ⟨3758096384, 3758096384⟩] := by
  decide

/-- C7: for every list of intervals each with `start ≤ end`, the `mergedIntervals` obtained by
calling `insert` on them one after another from `New()` is equal, as a list of
`(start, end)` pairs, to the `mergedIntervals` obtained by calling `merge()` on a union whose
raw log is that list. -/
theorem insertAll_eq_merge (L : List Interval) (u : Union)
    (hL : ∀ iv ∈ L, iv.start ≤ iv.end_) (hv : ∀ p ∈ u.intervals, p < u.heap.length)
    (hlog : view u.heap u.intervals = L) :
    view (insertAll New L).heap (insertAll New L).mergedIntervals =
      view (merge u).1.heap (merge u).1.mergedIntervals := by
  rw [insertAll_spec L New (by simp [New]), merge_spec u hv, hlog]
  exact incremental_eq_bulk L hL

/-- C7, at the log `[5, 9], [1, 3], [3, 6], [20, 30]`. -/
theorem insertAll_eq_merge_witness :
    view (insertAll New [⟨5, 9⟩, ⟨1, 3⟩, ⟨3, 6⟩, ⟨20, 30⟩]).heap
        (insertAll New [⟨5, 9⟩, ⟨1, 3⟩, ⟨3, 6⟩, ⟨20, 30⟩]).mergedIntervals =
      view (merge { heap := [⟨5, 9⟩, ⟨1, 3⟩, ⟨3, 6⟩, ⟨20, 30⟩], intervals := [0, 1, 2, 3],
                    mergedIntervals := [] }).1.heap
        (merge { heap := [⟨5, 9⟩, ⟨1, 3⟩, ⟨3, 6⟩, ⟨20, 30⟩], intervals := [0, 1, 2, 3],
                 mergedIntervals := [] }).1.mergedIntervals :=
  insertAll_eq_merge [⟨5, 9⟩, ⟨1, 3⟩, ⟨3, 6⟩, ⟨20, 30⟩]
    { heap := [⟨5, 9⟩, ⟨1, 3⟩, ⟨3, 6⟩, ⟨20, 30⟩], intervals := [0, 1, 2, 3],
      mergedIntervals := [] }
    (by decide) (by decide) (by decide)

/-- C8: for every list of intervals and every permutation of it, `merge()` on a union whose
raw log is the list and `merge()` on a union whose raw log is the permutation produce the same
`mergedIntervals` as lists of `(start, end)` pairs. -/
theorem merge_perm (u1 u2 : Union) (hv1 : ∀ p ∈ u1.intervals, p < u1.heap.length)
    (hv2 : ∀ p ∈ u2.intervals, p < u2.heap.length)
    (hperm : (view u1.heap u1.intervals).Perm (view u2.heap u2.intervals)) :
    view (merge u1).1.heap (merge u1).1.mergedIntervals =
      view (merge u2).1.heap (merge u2).1.mergedIntervals := by
  rw [merge_spec u1 hv1, merge_spec u2 hv2]
  exact bulk_perm hperm

/-- C8, at the log `[5, 3], [1, 4], [2, 9], [1, 4]` and the same records in another order. -/
theorem merge_perm_witness :
    view (merge { heap := [⟨5, 3⟩, ⟨1, 4⟩, ⟨2, 9⟩, ⟨1, 4⟩], intervals := [0, 1, 2, 3],
                  mergedIntervals := [] }).1.heap
        (merge { heap := [⟨5, 3⟩, ⟨1, 4⟩, ⟨2, 9⟩, ⟨1, 4⟩], intervals := [0, 1, 2, 3],
                 mergedIntervals := [] }).1.mergedIntervals =
      view (merge { heap := [⟨5, 3⟩, ⟨1, 4⟩, ⟨2, 9⟩, ⟨1, 4⟩], intervals := [2, 3, 0, 1],
                    mergedIntervals := [] }).1.heap
        (merge { heap := [⟨5, 3⟩, ⟨1, 4⟩, ⟨2, 9⟩, ⟨1, 4⟩], intervals := [2, 3, 0, 1],
                 mergedIntervals := [] }).1.mergedIntervals :=
  merge_perm _ _ (by decide) (by decide) (by decide)

/-- C9, as stated, fails: inserting `[4, 5]` and then `[10, 2]` leaves
`[10, 2], [4, 5]`, and inserting `[10, 2]` and then `[4, 5]` leaves `[4, 5], [10, 2]`. -/
theorem insertAll_perm_counterexample :
    List.Perm [(⟨4, 5⟩ : Interval), ⟨10, 2⟩] [⟨10, 2⟩, ⟨4, 5⟩] ∧
    view (insertAll New [⟨4, 5⟩, ⟨10, 2⟩]).heap
        (insertAll New [⟨4, 5⟩, ⟨10, 2⟩]).mergedIntervals = [⟨10, 2⟩, ⟨4, 5⟩] ∧
    view (insertAll New [⟨10, 2⟩, ⟨4, 5⟩]).heap
        (insertAll New [⟨10, 2⟩, ⟨4, 5⟩]).mergedIntervals = [⟨4, 5⟩, ⟨10, 2⟩] ∧
    view (insertAll New [⟨4, 5⟩, ⟨10, 2⟩]).heap
        (insertAll New [⟨4, 5⟩, ⟨10, 2⟩]).mergedIntervals ≠
      view (insertAll New [⟨10, 2⟩, ⟨4, 5⟩]).heap
        (insertAll New [⟨10, 2⟩, ⟨4, 5⟩]).mergedIntervals := by
  decide

/-- C9, amended: for every list of intervals each with `start ≤ end` and every permutation of
it, calling `insert` on the intervals one after another from `New()` in the list's order and
in the permutation's order leaves the same `mergedIntervals` as lists of `(start, end)`
pairs. -/
theorem insertAll_perm (L1 L2 : List Interval) (hperm : L1.Perm L2)
    (hL : ∀ iv ∈ L1, iv.start ≤ iv.end_) :
    view (insertAll New L1).heap (insertAll New L1).mergedIntervals =
      view (insertAll New L2).heap (insertAll New L2).mergedIntervals := by
  rw [insertAll_spec L1 New (by simp [New]), insertAll_spec L2 New (by simp [New])]
  show incremental [] L1 = incremental [] L2
  rw [incremental_eq_bulk L1 hL,
    incremental_eq_bulk L2 (fun iv hiv => hL iv (hperm.mem_iff.2 hiv))]
  exact bulk_perm hperm

/-- C9, amended, at `[4, 5], [2, 10], [11, 12]` and its reverse. -/
theorem insertAll_perm_witness :
    view (insertAll New [⟨4, 5⟩, ⟨2, 10⟩, ⟨11, 12⟩]).heap
        (insertAll New [⟨4, 5⟩, ⟨2, 10⟩, ⟨11, 12⟩]).mergedIntervals =
      view (insertAll New [⟨11, 12⟩, ⟨2, 10⟩, ⟨4, 5⟩]).heap
        (insertAll New [⟨11, 12⟩, ⟨2, 10⟩, ⟨4, 5⟩]).mergedIntervals :=
  insertAll_perm [⟨4, 5⟩, ⟨2, 10⟩, ⟨11, 12⟩] [⟨11, 12⟩, ⟨2, 10⟩, ⟨4, 5⟩] (by decide)
    (by decide)

/-- C10: for every union and every pair of strings, `addRange` returns the
`InvalidIPAddress` error and leaves the union, so both `intervals` and `mergedIntervals`, as
it was: a string with a `'.'` is rejected at once and one without has no dot for `loadip4`. -/
theorem addRange_fails (union : Union) (startIp endIp : List Nat) :
    addRange union startIp endIp = (union, some .InvalidIPAddress) := by
  unfold addRange
  by_cases h : 46 ∈ startIp ∨ 46 ∈ endIp
  · rw [if_pos h]
  · rw [if_neg h]
    have h0 : countDots startIp = 0 := by
      unfold countDots
      exact List.count_eq_zero_of_not_mem (fun hx => h (Or.inl hx))
    rw [loadip4_of_dots startIp (by rw [h0]; decide)]

/-! ## Errors of `addCidr` -/

/-- The method `insert` returns no error. -/
theorem insert_no_error (u : Union) (p : Nat) : (insert u p).2 = none := by
  unfold insert
  simp only
  split <;> rfl

/-- A call of `addCidr` that returns an error returns the union as it was. -/
theorem addCidr_unchanged (union : Union) (cidr : List Nat)
    (h : (addCidr union cidr).2 ≠ none) : (addCidr union cidr).1 = union := by
  unfold addCidr addCidrByte at h ⊢
  by_cases hi : indexByte cidr 46 ≤ 0
  · rw [if_pos hi]
  · rw [if_neg hi] at h ⊢
    cases hp : parsecidr4 cidr with
    | error e => rfl
    | ok r =>
      rw [hp] at h
      exact absurd (insert_no_error _ _) h

/-- The first check of `addCidrByte`: no `'.'`, or a `'.'` at index 0. -/
theorem addCidr_no_dot (union : Union) (cidr : List Nat)
    (h : 46 ∉ cidr ∨ cidr.head? = some 46) :
    addCidr union cidr = (union, some .InvalidIPAddress) := by
  have hi : indexByte cidr 46 ≤ 0 := by
    unfold indexByte
    rcases h with h | h
    · rw [if_neg h]; decide
    · cases cidr with
      | nil => simp at h
      | cons b t =>
        simp only [List.head?_cons, Option.some.injEq] at h
        subst h
        rw [if_pos (List.mem_cons_self _ _), List.indexOf_cons_self]
        decide
  unfold addCidr addCidrByte
  rw [if_pos hi]

/-- C11: for every union and every text, if `addCidr` returns an error then the union is
exactly what it was before the call: `intervals`, `mergedIntervals` and every record they
point to; and it returns the error, with the union as it was, whenever the text has no `'.'`
or its first `'.'` is at index 0. -/
theorem addCidr_error (union : Union) (cidr : List Nat) :
    ((addCidr union cidr).2 ≠ none →
      (addCidr union cidr).1 = union ∧
        view (addCidr union cidr).1.heap (addCidr union cidr).1.intervals =
          view union.heap union.intervals ∧
        view (addCidr union cidr).1.heap (addCidr union cidr).1.mergedIntervals =
          view union.heap union.mergedIntervals) ∧
    ((46 ∉ cidr ∨ cidr.head? = some 46) →
      addCidr union cidr = (union, some .InvalidIPAddress)) := by
  refine ⟨fun h => ?_, fun h => addCidr_no_dot union cidr h⟩
  rw [addCidr_unchanged union cidr h]
  exact ⟨rfl, rfl, rfl⟩

set_option maxRecDepth 100000 in
/-- C11, on the union that holds `[1, 10]`: at `"1.2.3/x"`, which `parsecidr4` rejects, the
union with its heap is what it was, and at `".1.2.3"`, whose first dot is at index 0, the
error is returned with the union as it was. -/
theorem addCidr_error_witness :
    ((addCidr (insertNew New 1 10).1 [49, 46, 50, 46, 51, 47, 120]).1 =
        { heap := [⟨1, 10⟩, ⟨1, 10⟩], intervals := [0], mergedIntervals := [1] } ∧
      view (addCidr (insertNew New 1 10).1 [49, 46, 50, 46, 51, 47, 120]).1.heap
          (addCidr (insertNew New 1 10).1 [49, 46, 50, 46, 51, 47, 120]).1.intervals =
        [⟨1, 10⟩] ∧
      view (addCidr (insertNew New 1 10).1 [49, 46, 50, 46, 51, 47, 120]).1.heap
          (addCidr (insertNew New 1 10).1 [49, 46, 50, 46, 51, 47, 120]).1.mergedIntervals =
        [⟨1, 10⟩]) ∧
    addCidr (insertNew New 1 10).1 [46, 49, 46, 50, 46, 51] =
      ((insertNew New 1 10).1, some .InvalidIPAddress) :=
  ⟨(addCidr_error (insertNew New 1 10).1 [49, 46, 50, 46, 51, 47, 120]).1 (by decide),
    (addCidr_error (insertNew New 1 10).1 [46, 49, 46, 50, 46, 51]).2 (Or.inr (by decide))⟩

/-! ## Examples of `insert` and `find` -/

/-- Two intervals that share a boundary value are merged. -/
theorem insertAll_touching (a b c : Nat) (hab : a ≤ b) (hbc : b ≤ c) :
    view (insertAll New [⟨a, b⟩, ⟨b, c⟩]).heap (insertAll New [⟨a, b⟩, ⟨b, c⟩]).mergedIntervals =
      [⟨a, c⟩] := by
  rw [insertAll_spec _ New (by simp [New])]
  show walk (walk [] a b false) b c false = _
  show walk [⟨a, b⟩] b c false = _
  rw [walk_cons_absorb _ _ _ _ _ (by simp only; omega) (by simp only; omega)]
  simp only [walk, min_eq, max_eq, Bool.false_eq_true, if_false]
  congr 2 <;> omega

/-- C12: for all `a ≤ b ≤ c`, inserting `[a, b]` and then `[b, c]` into an empty union leaves
`mergedIntervals` equal to the single interval `[a, c]`. -/
theorem insert_touching (a b c : Nat) (hab : a ≤ b) (hbc : b ≤ c) :
    view (insertAll New [⟨a, b⟩, ⟨b, c⟩]).heap (insertAll New [⟨a, b⟩, ⟨b, c⟩]).mergedIntervals =
      [⟨a, c⟩] :=
  insertAll_touching a b c hab hbc

/-- C12, at `[1, 10]` then `[10, 20]`, which gives `[1, 20]`. -/
theorem insert_touching_witness :
    view (insertAll New [⟨1, 10⟩, ⟨10, 20⟩]).heap
        (insertAll New [⟨1, 10⟩, ⟨10, 20⟩]).mergedIntervals = [⟨1, 20⟩] :=
  insert_touching 1 10 20 (by decide) (by decide)

/-- Two intervals with a gap between them are kept apart. -/
theorem insertAll_apart (a b c d : Nat) (hab : a ≤ b) (hbc : b < c) (hcd : c ≤ d) :
    view (insertAll New [⟨a, b⟩, ⟨c, d⟩]).heap (insertAll New [⟨a, b⟩, ⟨c, d⟩]).mergedIntervals =
      [⟨a, b⟩, ⟨c, d⟩] := by
  rw [insertAll_spec _ New (by simp [New])]
  show walk (walk [] a b false) c d false = _
  show walk [⟨a, b⟩] c d false = _
  rw [walk_cons_left _ _ _ _ _ (by simp only; omega) (by simp only; omega)]
  rfl

/-- C13: for all `a ≤ b < c ≤ d`, inserting `[a, b]` and then `[c, d]` into an empty union
leaves `mergedIntervals` equal to the two intervals `[a, b], [c, d]` in that order, also when
`c = b + 1`. -/
theorem insert_apart (a b c d : Nat) (hab : a ≤ b) (hbc : b < c) (hcd : c ≤ d) :
    view (insertAll New [⟨a, b⟩, ⟨c, d⟩]).heap (insertAll New [⟨a, b⟩, ⟨c, d⟩]).mergedIntervals =
      [⟨a, b⟩, ⟨c, d⟩] :=
  insertAll_apart a b c d hab hbc hcd

/-- C13, at `[1, 10]` then `[12, 20]`. -/
theorem insert_apart_witness :
    view (insertAll New [⟨1, 10⟩, ⟨12, 20⟩]).heap
        (insertAll New [⟨1, 10⟩, ⟨12, 20⟩]).mergedIntervals = [⟨1, 10⟩, ⟨12, 20⟩] :=
  insert_apart 1 10 12 20 (by decide) (by decide) (by decide)

/-- The gap may be as small as one value: `[1, 10]` then `[11, 20]`. -/
theorem insert_adjacent_example :
    view (insertAll New [⟨1, 10⟩, ⟨11, 20⟩]).heap
        (insertAll New [⟨1, 10⟩, ⟨11, 20⟩]).mergedIntervals = [⟨1, 10⟩, ⟨11, 20⟩] := by
  decide

/-- After one `insert` on `New()` the log that `find` scans holds the inserted record. -/
theorem find_insertNew_New (s e v : Nat) :
    find (insertNew New s e).1 v = true ↔ s ≤ v ∧ v ≤ e := by
  obtain ⟨_, ⟨ext, hheap⟩, _, hlog, _⟩ := insertNew_spec New s e (by simp [New])
  have h0 : deref (insertNew New s e).1.heap 0 = { start := s, end_ := e } := by
    rw [hheap]; rfl
  rw [find_iff, hlog]
  constructor
  · rintro ⟨p, hp, hc⟩
    have hp0 : p = 0 := by simpa [New] using hp
    rw [hp0, h0] at hc
    exact hc
  · intro hc
    exact ⟨0, by simp [New], by rw [h0]; exact hc⟩

/-- C14: for all `s`, `e` and `v`, after inserting the interval `[s, e]` into an empty union,
`find(v)` is true if and only if `s ≤ v ≤ e`. -/
theorem find_after_insert (s e v : Nat) :
    find (insertNew New s e).1 v = true ↔ s ≤ v ∧ v ≤ e :=
  find_insertNew_New s e v

/-- After inserting `[100, 200]`, `find` of 150, 99, 200, 201 is true, false, true, false. -/
theorem find_100_200_example :
    find (insertNew New 100 200).1 150 = true ∧ find (insertNew New 100 200).1 99 = false ∧
      find (insertNew New 100 200).1 200 = true ∧ find (insertNew New 100 200).1 201 = false := by
  decide

/-! ## `parsecidr4` without a prefix length -/

theorem indexByte_le_zero (t : List Nat) (c : Nat) (h : c ∉ t ∨ t.head? = some c) :
    ¬ indexByte t c > 0 := by
  unfold indexByte
  rcases h with h | h
  · rw [if_neg h]; decide
  · cases t with
    | nil => simp at h
    | cons b t =>
      simp only [List.head?_cons, Option.some.injEq] at h
      subst h
      rw [if_pos (List.mem_cons_self _ _), List.indexOf_cons_self]
      decide

/-- Without a `'/'` after index 0, `parsecidr4` is `loadip4` with the mask `0xffffffff`. -/
theorem parsecidr4_of_no_slash (t : List Nat) (h : 47 ∉ t ∨ t.head? = some 47) :
    parsecidr4 t =
      match loadip4 t with
      | .error e => .error e
      | .ok ip => .ok (ip, 0xffffffff) := by
  unfold parsecidr4
  simp only
  rw [if_neg (indexByte_le_zero t 47 h)]

theorem indexByte_dot_dottedQuad (a b c d : Nat) (ha : a ≤ 255) :
    ¬ indexByte (dottedQuad a b c d) 46 ≤ 0 := by
  obtain ⟨h, t, e, h1⟩ := decimal_octet_head a (by omega)
  have := indexByte_pos_of_head h 46 (t ++ 46 :: (decimal b ++ 46 :: (decimal c ++ 46 ::
    decimal d))) (by omega) (by simp)
  simp only [dottedQuad, e, List.cons_append]
  omega

/-- What `addCidr` does with a bare dotted quad of octets. -/
theorem addCidr_bare (union : Union) (a b c d : Nat) (ha : a ≤ 255) (hb : b ≤ 255)
    (hc : c ≤ 255) (hd : d ≤ 255) :
    addCidr union (dottedQuad a b c d) =
      insertNew union (a * 2 ^ 24 + b * 2 ^ 16 + c * 2 ^ 8 + d) 4294967295 := by
  have hnot : (47 : Nat) ∉ dottedQuad a b c d := by
    intro h
    rcases mem_dottedQuad a b c d ha hb hc hd 47 h with h | h <;> omega
  unfold addCidr addCidrByte
  rw [if_neg (indexByte_dot_dottedQuad a b c d ha),
    parsecidr4_of_no_slash _ (Or.inl hnot), loadip4_quad a b c d ha hb hc hd]

/-- C15: for every byte sequence `t` that has no `'/'` at an index greater than 0 (no `'/'`,
or the first one at index 0), `parsecidr4 t` fails exactly when `loadip4 t` fails and
otherwise returns `(loadip4 t, 0xFFFFFFFF)`; so `addCidr` of a bare address `"a.b.c.d"`
inserts the interval `[address, 4294967295]`. -/
theorem parsecidr4_no_slash (t : List Nat) (union : Union) (a b c d : Nat)
    (h : 47 ∉ t ∨ t.head? = some 47)
    (ha : a ≤ 255) (hb : b ≤ 255) (hc : c ≤ 255) (hd : d ≤ 255) :
    (∀ e, loadip4 t = .error e → parsecidr4 t = .error e) ∧
    (∀ ip, loadip4 t = .ok ip → parsecidr4 t = .ok (ip, 4294967295)) ∧
    addCidr union (dottedQuad a b c d) =
      insertNew union (a * 2 ^ 24 + b * 2 ^ 16 + c * 2 ^ 8 + d) 4294967295 := by
  refine ⟨fun e he => ?_, fun ip hip => ?_, addCidr_bare union a b c d ha hb hc hd⟩
  · rw [parsecidr4_of_no_slash t h, he]
  · rw [parsecidr4_of_no_slash t h, hip]

set_option maxRecDepth 100000 in
/-- C15, at `"1.2.3.4"`: `parsecidr4` returns `(16909060, 4294967295)` and `addCidr` on
`New()` leaves the interval `[16909060, 4294967295]`. -/
theorem parsecidr4_no_slash_witness :
    parsecidr4 (dottedQuad 1 2 3 4) = .ok (16909060, 4294967295) ∧
      view (addCidr New (dottedQuad 1 2 3 4)).1.heap
          (addCidr New (dottedQuad 1 2 3 4)).1.mergedIntervals =
        [⟨16909060, 4294967295⟩] :=
  ⟨(parsecidr4_no_slash (dottedQuad 1 2 3 4) New 1 2 3 4 (Or.inl (by decide)) (by decide)
      (by decide) (by decide) (by decide)).2.1 16909060 (by decide),
    by
      rw [(parsecidr4_no_slash (dottedQuad 1 2 3 4) New 1 2 3 4 (Or.inl (by decide))
        (by decide) (by decide) (by decide) (by decide)).2.2]
      decide⟩

/-- A text whose first byte is `'/'` is rejected by `parsecidr4`, as by `loadip4`. -/
theorem parsecidr4_leading_slash_example :
    loadip4 [47, 49, 46, 50, 46, 51, 46, 52] = .error .InvalidIPAddress ∧
      parsecidr4 [47, 49, 46, 50, 46, 51, 46, 52] = .error .InvalidIPAddress := by
  decide

/-! ## One call of `insert` on separated intervals -/

/-- The method `insert` keeps `mergedIntervals` separated. -/
theorem insert_separated (u : Union) (p : Nat)
    (hm : ∀ q ∈ u.mergedIntervals, q < u.heap.length)
    (hsep : separated (view u.heap u.mergedIntervals))
    (hn : (deref u.heap p).start ≤ (deref u.heap p).end_) :
    separated (view (insert u p).1.heap (insert u p).1.mergedIntervals) := by
  rw [(insert_spec u p hm).1]
  exact walk_separated _ _ _ hsep hn

/-- After `insert`, `mergedIntervals` covers what it covered and the new interval. -/
theorem insert_covers (u : Union) (p : Nat)
    (hm : ∀ q ∈ u.mergedIntervals, q < u.heap.length)
    (hsep : separated (view u.heap u.mergedIntervals))
    (hn : (deref u.heap p).start ≤ (deref u.heap p).end_) (v : Nat) :
    (∃ iv ∈ view (insert u p).1.heap (insert u p).1.mergedIntervals,
        iv.start ≤ v ∧ v ≤ iv.end_) ↔
      ((∃ iv ∈ view u.heap u.mergedIntervals, iv.start ≤ v ∧ v ≤ iv.end_) ∨
        ((deref u.heap p).start ≤ v ∧ v ≤ (deref u.heap p).end_)) := by
  rw [(insert_spec u p hm).1]
  exact walk_covers _ _ _ v hsep hn

/-- C16: if every interval of `mergedIntervals` has `start ≤ end` and each interval's `end` is
strictly less than the next interval's `start`, and the new interval has `start ≤ end`, then
after `insert` the new `mergedIntervals` again has every interval with `start ≤ end` and each
interval's `end` strictly less than the next interval's `start`. The addresses in
`mergedIntervals` are addresses of records of the heap. -/
theorem insert_preserves_separated (u : Union) (newInterval : Nat)
    (hm : ∀ q ∈ u.mergedIntervals, q < u.heap.length)
    (hnorm : ∀ iv ∈ view u.heap u.mergedIntervals, iv.start ≤ iv.end_)
    (hgap : (view u.heap u.mergedIntervals).Chain' (fun a b => a.end_ < b.start))
    (hnew : (deref u.heap newInterval).start ≤ (deref u.heap newInterval).end_) :
    (∀ iv ∈ view (insert u newInterval).1.heap (insert u newInterval).1.mergedIntervals,
        iv.start ≤ iv.end_) ∧
      (view (insert u newInterval).1.heap (insert u newInterval).1.mergedIntervals).Chain'
        (fun a b => a.end_ < b.start) :=
  insert_separated u newInterval hm ⟨hnorm, hgap⟩ hnew

/-- C16, at `mergedIntervals = [1, 4], [6, 9], [20, 30]` and the new interval `[4, 7]`. -/
theorem insert_preserves_separated_witness :
    (∀ iv ∈ view
          (insert { heap := [⟨1, 4⟩, ⟨6, 9⟩, ⟨20, 30⟩, ⟨4, 7⟩], intervals := [],
                    mergedIntervals := [0, 1, 2] } 3).1.heap
          (insert { heap := [⟨1, 4⟩, ⟨6, 9⟩, ⟨20, 30⟩, ⟨4, 7⟩], intervals := [],
                    mergedIntervals := [0, 1, 2] } 3).1.mergedIntervals,
        iv.start ≤ iv.end_) ∧
      (view
          (insert { heap := [⟨1, 4⟩, ⟨6, 9⟩, ⟨20, 30⟩, ⟨4, 7⟩], intervals := [],
                    mergedIntervals := [0, 1, 2] } 3).1.heap
          (insert { heap := [⟨1, 4⟩, ⟨6, 9⟩, ⟨20, 30⟩, ⟨4, 7⟩], intervals := [],
                    mergedIntervals := [0, 1, 2] } 3).1.mergedIntervals).Chain'
        (fun a b => a.end_ < b.start) :=
  insert_preserves_separated
    { heap := [⟨1, 4⟩, ⟨6, 9⟩, ⟨20, 30⟩, ⟨4, 7⟩], intervals := [], mergedIntervals := [0, 1, 2] }
    3 (by decide) (by decide) (by simp [view, deref]) (by decide)

/-- C17: if every interval of `mergedIntervals` has `start ≤ end` and each interval's `end` is
strictly less than the next interval's `start`, and the new interval has `start ≤ end`, then
for every `v`, `v` lies in some interval of `mergedIntervals` after `insert` if and only if it
lay in some interval of `mergedIntervals` before the call or `new.start ≤ v ≤ new.end`. The
addresses in `mergedIntervals` are addresses of records of the heap. -/
theorem insert_covers_union (u : Union) (newInterval : Nat)
    (hm : ∀ q ∈ u.mergedIntervals, q < u.heap.length)
    (hnorm : ∀ iv ∈ view u.heap u.mergedIntervals, iv.start ≤ iv.end_)
    (hgap : (view u.heap u.mergedIntervals).Chain' (fun a b => a.end_ < b.start))
    (hnew : (deref u.heap newInterval).start ≤ (deref u.heap newInterval).end_) (v : Nat) :
    (∃ iv ∈ view (insert u newInterval).1.heap (insert u newInterval).1.mergedIntervals,
        iv.start ≤ v ∧ v ≤ iv.end_) ↔
      ((∃ iv ∈ view u.heap u.mergedIntervals, iv.start ≤ v ∧ v ≤ iv.end_) ∨
        ((deref u.heap newInterval).start ≤ v ∧ v ≤ (deref u.heap newInterval).end_)) :=
  insert_covers u newInterval hm ⟨hnorm, hgap⟩ hnew v

/-- C17, at `mergedIntervals = [1, 4], [6, 9], [20, 30]`, the new interval `[4, 7]` and the
value 5, which only the new interval contains. -/
theorem insert_covers_union_witness :
    (∃ iv ∈ view
          (insert { heap := [⟨1, 4⟩, ⟨6, 9⟩, ⟨20, 30⟩, ⟨4, 7⟩], intervals := [],
                    mergedIntervals := [0, 1, 2] } 3).1.heap
          (insert { heap := [⟨1, 4⟩, ⟨6, 9⟩, ⟨20, 30⟩, ⟨4, 7⟩], intervals := [],
                    mergedIntervals := [0, 1, 2] } 3).1.mergedIntervals,
        iv.start ≤ 5 ∧ 5 ≤ iv.end_) ↔
      ((∃ iv ∈ view [⟨1, 4⟩, ⟨6, 9⟩, ⟨20, 30⟩, ⟨4, 7⟩] [0, 1, 2],
          iv.start ≤ 5 ∧ 5 ≤ iv.end_) ∨
        ((deref [⟨1, 4⟩, ⟨6, 9⟩, ⟨20, 30⟩, ⟨4, 7⟩] 3).start ≤ 5 ∧
          5 ≤ (deref [⟨1, 4⟩, ⟨6, 9⟩, ⟨20, 30⟩, ⟨4, 7⟩] 3).end_)) :=
  insert_covers_union
    { heap := [⟨1, 4⟩, ⟨6, 9⟩, ⟨20, 30⟩, ⟨4, 7⟩], intervals := [], mergedIntervals := [0, 1, 2] }
    3 (by decide) (by decide) (by simp [view, deref]) (by decide) 5

/-! ## `loadip4` on four groups of digits -/

/-- Scanning a run of digits with a value within 255, followed by a `'.'`. -/
theorem loadip4Loop_group_dot (r : List Nat) (hd : ∀ b ∈ r, 48 ≤ b ∧ b ≤ 57)
    (hv : digitsValue 0 r ≤ 255) (rest : List Nat) (ip num : Nat) (hip : ip < 2 ^ 24) :
    loadip4Loop (r ++ 46 :: rest) { ip := ip, oct := 0, num := num } =
      loadip4Loop rest
        { ip := ip * 256 + digitsValue 0 r, oct := 0, num := (num + 1) % 256 } := by
  rw [loadip4Loop_digits r _ _ hd (by simp only; omega)]
  rw [loadip4Loop_dot _ _ (by simp only; omega)]
  have : ((ip * 256) % 2 ^ 32 + digitsValue 0 r) % 2 ^ 32 = ip * 256 + digitsValue 0 r := by
    omega
  simp only [this]

/-- The value of `loadip4` on four runs of digits, each with a value within 255, separated by
three dots: no guard fires. -/
theorem loadip4_of_groups (r1 r2 r3 r4 : List Nat)
    (h1 : ∀ b ∈ r1, 48 ≤ b ∧ b ≤ 57) (h2 : ∀ b ∈ r2, 48 ≤ b ∧ b ≤ 57)
    (h3 : ∀ b ∈ r3, 48 ≤ b ∧ b ≤ 57) (h4 : ∀ b ∈ r4, 48 ≤ b ∧ b ≤ 57)
    (v1 : digitsValue 0 r1 ≤ 255) (v2 : digitsValue 0 r2 ≤ 255)
    (v3 : digitsValue 0 r3 ≤ 255) (v4 : digitsValue 0 r4 ≤ 255) :
    loadip4 (r1 ++ 46 :: (r2 ++ 46 :: (r3 ++ 46 :: r4))) =
      .ok (((digitsValue 0 r1 * 256 + digitsValue 0 r2) * 256 + digitsValue 0 r3) * 256 +
        digitsValue 0 r4) := by
  have hloop : loadip4Loop (r1 ++ 46 :: (r2 ++ 46 :: (r3 ++ 46 :: r4)))
      { ip := 0, oct := 0, num := 0 } =
      .ok { ip := ((0 * 256 + digitsValue 0 r1) * 256 + digitsValue 0 r2) * 256 +
              digitsValue 0 r3,
            oct := digitsValue 0 r4, num := 3 } := by
    rw [loadip4Loop_group_dot r1 h1 v1 _ 0 0 (by omega)]
    rw [loadip4Loop_group_dot r2 h2 v2 _ _ _ (by omega)]
    rw [loadip4Loop_group_dot r3 h3 v3 _ _ _ (by omega)]
    have h := loadip4Loop_digits r4 []
      { ip := ((0 * 256 + digitsValue 0 r1) * 256 + digitsValue 0 r2) * 256 +
          digitsValue 0 r3, oct := 0, num := 3 } h4 (by simp only; omega)
    rw [List.append_nil] at h
    rw [show ((0 + 1) % 256 + 1) % 256 = 2 from rfl, show (2 + 1) % 256 = 3 from rfl, h]
    simp only [loadip4Loop]
  unfold loadip4
  rw [hloop]
  simp only [ne_eq, not_true_eq_false, if_false]
  rw [if_neg (by omega)]
  congr 1
  omega

theorem groups_append_dot (r rest : List Nat) (hr : ∀ b ∈ r, 48 ≤ b ∧ b ≤ 57) :
    groups (r ++ 46 :: rest) = r :: groups rest := by
  induction r with
  | nil => simp [groups]
  | cons b r ih =>
    have hb := hr b (List.mem_cons_self _ _)
    rw [List.cons_append, groups, if_neg (by omega),
      ih (fun x hx => hr x (List.mem_cons_of_mem _ hx))]

theorem groups_digits (r : List Nat) (hr : ∀ b ∈ r, 48 ≤ b ∧ b ≤ 57) : groups r = [r] := by
  induction r with
  | nil => rfl
  | cons b r ih =>
    have hb := hr b (List.mem_cons_self _ _)
    rw [groups, if_neg (by omega), ih (fun x hx => hr x (List.mem_cons_of_mem _ hx))]

/-- A sequence of digits and dots with a dot splits at its first dot. -/
theorem split_at_dot (bs : List Nat) : ∀ (n : Nat),
    (∀ b ∈ bs, b = 46 ∨ (48 ≤ b ∧ b ≤ 57)) → countDots bs = n + 1 →
    ∃ r rest, bs = r ++ 46 :: rest ∧ (∀ b ∈ r, 48 ≤ b ∧ b ≤ 57) ∧
      (∀ b ∈ rest, b = 46 ∨ (48 ≤ b ∧ b ≤ 57)) ∧ countDots rest = n := by
  induction bs with
  | nil => intro n _ h; simp [countDots] at h
  | cons c bs ih =>
    intro n honly hdots
    have htail : ∀ b ∈ bs, b = 46 ∨ (48 ≤ b ∧ b ≤ 57) :=
      fun b hb => honly b (List.mem_cons_of_mem _ hb)
    by_cases hc : c = 46
    · subst hc
      refine ⟨[], bs, rfl, by simp, htail, ?_⟩
      simp only [countDots, List.count_cons_self] at hdots ⊢
      omega
    · have hcd : 48 ≤ c ∧ c ≤ 57 := by
        rcases honly c (List.mem_cons_self _ _) with h | h
        · exact absurd h hc
        · exact h
      have hcount : countDots bs = n + 1 := by
        simp only [countDots, List.count_cons_of_ne (Ne.symm hc)] at hdots ⊢
        exact hdots
      obtain ⟨r, rest, e, hr, hrest, hn⟩ := ih n htail hcount
      refine ⟨c :: r, rest, by rw [e]; rfl, ?_, hrest, hn⟩
      intro b hb
      rcases List.mem_cons.1 hb with h | h
      · rw [h]; exact hcd
      · exact hr b h

/-- A sequence of digits and dots without a dot is a run of digits. -/
theorem digits_of_no_dot (bs : List Nat) (honly : ∀ b ∈ bs, b = 46 ∨ (48 ≤ b ∧ b ≤ 57))
    (hdots : countDots bs = 0) : ∀ b ∈ bs, 48 ≤ b ∧ b ≤ 57 := by
  intro b hb
  rcases honly b hb with h | h
  · subst h
    have : 0 < countDots bs := List.count_pos_iff.2 hb
    omega
  · exact h

/-- C18: for every byte sequence made only of digit bytes and exactly three `'.'` bytes in
which every group between the dots (a maximal run of digits, or an empty run, which counts as
0) has a decimal value of at most 255, `loadip4` succeeds, so that the guard
`0xffffffff-ip < oct` rejects no such input, and returns the four group values folded as
`((g1*256 + g2)*256 + g3)*256 + g4`. -/
theorem loadip4_groups (bs : List Nat)
    (honly : ∀ b ∈ bs, b = 46 ∨ (48 ≤ b ∧ b ≤ 57)) (hdots : countDots bs = 3)
    (hval : ∀ r ∈ groups bs, digitsValue 0 r ≤ 255) :
    ∃ r1 r2 r3 r4, groups bs = [r1, r2, r3, r4] ∧
      loadip4 bs =
        .ok (((digitsValue 0 r1 * 256 + digitsValue 0 r2) * 256 + digitsValue 0 r3) * 256 +
          digitsValue 0 r4) := by
  obtain ⟨r1, t1, e1, h1, o1, c1⟩ := split_at_dot bs 2 honly hdots
  obtain ⟨r2, t2, e2, h2, o2, c2⟩ := split_at_dot t1 1 o1 c1
  obtain ⟨r3, r4, e3, h3, o3, c3⟩ := split_at_dot t2 0 o2 c2
  have h4 := digits_of_no_dot r4 o3 c3
  have hg : groups bs = [r1, r2, r3, r4] := by
    rw [e1, groups_append_dot r1 _ h1, e2, groups_append_dot r2 _ h2, e3,
      groups_append_dot r3 _ h3, groups_digits r4 h4]
  rw [hg] at hval
  refine ⟨r1, r2, r3, r4, hg, ?_⟩
  rw [e1, e2, e3]
  exact loadip4_of_groups r1 r2 r3 r4 h1 h2 h3 h4 (hval r1 (by simp)) (hval r2 (by simp))
    (hval r3 (by simp)) (hval r4 (by simp))

/-- C18, at `"010..255.0007"`: leading zeros and an empty group. -/
theorem loadip4_groups_witness :
    ∃ r1 r2 r3 r4,
      groups [48, 49, 48, 46, 46, 50, 53, 53, 46, 48, 48, 48, 55] = [r1, r2, r3, r4] ∧
      loadip4 [48, 49, 48, 46, 46, 50, 53, 53, 46, 48, 48, 48, 55] =
        .ok (((digitsValue 0 r1 * 256 + digitsValue 0 r2) * 256 + digitsValue 0 r3) * 256 +
          digitsValue 0 r4) :=
  loadip4_groups [48, 49, 48, 46, 46, 50, 53, 53, 46, 48, 48, 48, 55] (by decide) (by decide)
    (by decide)

/-- The groups of the example above are `010`, the empty group, `255` and `0007`, and the
value is `10*2^24 + 0*2^16 + 255*2^8 + 7`. -/
theorem loadip4_leading_zeros_example :
    groups [48, 49, 48, 46, 46, 50, 53, 53, 46, 48, 48, 48, 55] =
        [[48, 49, 48], [], [50, 53, 53], [48, 48, 48, 55]] ∧
      loadip4 [48, 49, 48, 46, 46, 50, 53, 53, 46, 48, 48, 48, 55] = .ok 167837447 := by
  decide

/-! ## `parsecidr4` with a prefix length above 32 -/

/-- The mask loop on a run of digits whose value fits in 32 bits. -/
theorem maskLoop_digits (P : List Nat) : ∀ (acc : Nat), (∀ b ∈ P, 48 ≤ b ∧ b ≤ 57) →
    digitsValue acc P < 2 ^ 32 → maskLoop P acc = some (digitsValue acc P) := by
  induction P with
  | nil => intro acc _ _; rfl
  | cons c P ih =>
    intro acc hd hv
    have hc := hd c (List.mem_cons_self _ _)
    rw [digitsValue_cons] at hv ⊢
    have h1 : acc * 10 + (c - 48) < 2 ^ 32 := lt_of_le_of_lt (le_digitsValue P _) hv
    rw [maskLoop, if_neg (by omega), Nat.mod_eq_of_lt h1]
    exact ih _ (fun x hx => hd x (List.mem_cons_of_mem _ hx)) hv

/-- A text that `loadip4` accepts has no `'/'` and is not empty. -/
theorem no_slash_of_loadip4 (A : List Nat) (ip : Nat) (hA : loadip4 A = .ok ip) :
    47 ∉ A ∧ 0 < A.length := by
  constructor
  · intro h47
    have := loadip4_of_loop_error A
      (loadip4Loop_bad_byte A _ ⟨47, h47, by decide, by decide⟩)
    rw [this] at hA
    cases hA
  · cases A with
    | nil =>
      have h0 : loadip4 [] = .error .InvalidIPAddress := by decide
      rw [h0] at hA
      cases hA
    | cons b A => simp

/-- The shift of `parsecidr4` for a prefix length above 32: the count wraps to 33 or more. -/
theorem shl32_big (n : Nat) (hlo : 32 < n) (hhi : n < 2 ^ 32) :
    shl32 0xffffffff ((2 ^ 32 + 32 - n) % 2 ^ 32) = 0 := by
  unfold shl32
  rw [if_pos (by omega)]

/-- The value of `parsecidr4` on an accepted address followed by a prefix length above 32. -/
theorem parsecidr4_of_big_prefix (A P : List Nat) (ip : Nat) (hA : loadip4 A = .ok ip)
    (hdig : ∀ b ∈ P, 48 ≤ b ∧ b ≤ 57) (hlo : 32 < digitsValue 0 P)
    (hhi : digitsValue 0 P < 2 ^ 32) :
    parsecidr4 (A ++ 47 :: P) = .ok (ip, 0) := by
  obtain ⟨hnot, hlen⟩ := no_slash_of_loadip4 A ip hA
  have hp : indexByte (A ++ 47 :: P) 47 = (A.length : Int) := indexByte_of_not_mem _ _ _ hnot
  unfold parsecidr4
  simp only [hp]
  rw [if_pos (by omega)]
  simp only [Int.toNat_ofNat]
  rw [List.take_left' rfl]
  rw [show (A ++ 47 :: P) = (A ++ [47]) ++ P by simp]
  rw [List.drop_left' (by simp)]
  rw [maskLoop_digits P 0 hdig hhi, hA]
  simp only
  rw [shl32_big _ hlo hhi]

/-- C19: for every text `A` that `loadip4` accepts and every string `P` of decimal digits
whose value `n` satisfies `32 < n < 2^32` (such a string is not empty), `parsecidr4` on `A`
followed by `'/'` and `P` succeeds and returns `(loadip4(A), 0)`. -/
theorem parsecidr4_big_prefix (A P : List Nat) (ip : Nat) (hA : loadip4 A = .ok ip)
    (hdig : ∀ b ∈ P, 48 ≤ b ∧ b ≤ 57) (hlo : 32 < digitsValue 0 P)
    (hhi : digitsValue 0 P < 2 ^ 32) :
    parsecidr4 (A ++ 47 :: P) = .ok (ip, 0) :=
  parsecidr4_of_big_prefix A P ip hA hdig hlo hhi

set_option maxRecDepth 100000 in
/-- C19, at `"1.2.3.4/33"`. -/
theorem parsecidr4_big_prefix_witness :
    parsecidr4 (dottedQuad 1 2 3 4 ++ 47 :: [51, 51]) = .ok (16909060, 0) :=
  parsecidr4_big_prefix (dottedQuad 1 2 3 4) [51, 51] 16909060 (by decide) (by decide)
    (by decide) (by decide)

set_option maxRecDepth 100000 in
/-- The largest prefix length of the claim, `"1.2.3.4/4294967295"`, also gives the mask 0. -/
theorem parsecidr4_largest_prefix_example :
    parsecidr4 (dottedQuad 1 2 3 4 ++ 47 :: decimal 4294967295) = .ok (16909060, 0) := by
  decide

/-! ## `find` before and after `merge` -/

/-- The method `merge` does not change what `find` returns. -/
theorem find_merge_eq (u : Union) (target : Nat) : find (merge u).1 target = find u target := by
  rw [Bool.eq_iff_iff, find_iff, find_iff]
  have hperm := perm_sortSlice u.heap u.intervals
  have h := mergeLoop_cover (sortSlice u.heap u.intervals) target
    (sortSlice u.heap u.intervals) (u.heap, []) (by simp) (fun q hq => hq)
  show (∃ p ∈ sortSlice u.heap u.intervals,
    covers (deref ((sortSlice u.heap u.intervals).foldl mergeStep (u.heap, [])).1 p) target) ↔ _
  rw [h]
  constructor
  · rintro ⟨q, hq, hc⟩; exact ⟨q, hperm.mem_iff.1 hq, hc⟩
  · rintro ⟨q, hq, hc⟩; exact ⟨q, hperm.mem_iff.2 hq, hc⟩

/-- C20: for every union, whatever its raw log (intervals with `start > end` and addresses
that occur more than once included), and every target, `find(target)` returns the same after
`merge()` as before it. -/
theorem find_after_merge (u : Union) (target : Nat) :
    find (merge u).1 target = find u target :=
  find_merge_eq u target

/-- On the log `[5, 3], [1, 4], [3, 9]`, `merge` writes `end = 9` into the record `[1, 4]`;
`find` of 0, 2, 5 and 10 is as before. -/
theorem merge_in_place_example :
    view
        (merge
          { heap := [⟨5, 3⟩, ⟨1, 4⟩, ⟨3, 9⟩], intervals := [0, 1, 2], mergedIntervals := [] }).1.heap
        (merge
          { heap := [⟨5, 3⟩, ⟨1, 4⟩, ⟨3, 9⟩], intervals := [0, 1, 2],
            mergedIntervals := [] }).1.intervals = [⟨1, 9⟩, ⟨3, 9⟩, ⟨5, 3⟩] ∧
      [0, 2, 5, 10].map
          (find (merge
            { heap := [⟨5, 3⟩, ⟨1, 4⟩, ⟨3, 9⟩], intervals := [0, 1, 2],
              mergedIntervals := [] }).1) = [false, true, true, false] ∧
      [0, 2, 5, 10].map
          (find
            { heap := [⟨5, 3⟩, ⟨1, 4⟩, ⟨3, 9⟩], intervals := [0, 1, 2],
              mergedIntervals := [] }) = [false, true, true, false] := by
  decide

/-- After `insert` of `[5, 9]`, `[1, 3]`, `[3, 6]`, `[20, 30]` on `New()` and `merge()`, the
raw log is sorted and its first record has been overwritten: it reads
`[1, 9], [3, 6], [5, 9], [20, 30]`, with `[1, 9]` never inserted, and `mergedIntervals` is
`[1, 9], [20, 30]`, whose first record is that record of the log. -/
theorem merge_log_example :
    view (merge (insertAll New [⟨5, 9⟩, ⟨1, 3⟩, ⟨3, 6⟩, ⟨20, 30⟩])).1.heap
        (merge (insertAll New [⟨5, 9⟩, ⟨1, 3⟩, ⟨3, 6⟩, ⟨20, 30⟩])).1.intervals =
      [⟨1, 9⟩, ⟨3, 6⟩, ⟨5, 9⟩, ⟨20, 30⟩] ∧
    view (merge (insertAll New [⟨5, 9⟩, ⟨1, 3⟩, ⟨3, 6⟩, ⟨20, 30⟩])).1.heap
        (merge (insertAll New [⟨5, 9⟩, ⟨1, 3⟩, ⟨3, 6⟩, ⟨20, 30⟩])).1.mergedIntervals =
      [⟨1, 9⟩, ⟨20, 30⟩] ∧
    (merge (insertAll New [⟨5, 9⟩, ⟨1, 3⟩, ⟨3, 6⟩, ⟨20, 30⟩])).1.mergedIntervals.head? =
      (merge (insertAll New [⟨5, 9⟩, ⟨1, 3⟩, ⟨3, 6⟩, ⟨20, 30⟩])).1.intervals.head? := by
  decide

end IPRange
